import Mathlib

/-!
# otel-exporter-datadog: name sanitisation, aggregator selection and export dispatch

A shallow embedding of the Go sources

* `src/datadog.go`           (package `datadog`:  `exporter.Export`, `sanitizeMetricName`,
                              `sanitizeString`, `metricValue`),
* `src/exporter/datadog.go`  (package `exporter`: `Exporter.Export`, `extractTags`,
                              `metricValue`),
* `src/selector.go`          (package `datadog`:  `selectorDataDog.AggregatorFor`),

followed by the theorems that settle the claims C1 .. C10 of the specification.

Conventions of the embedding.

* A Go `string` is a Lean `String` (a sequence of code points).  Go strings that are not
  valid UTF-8 are outside the model.
* A Go `error` is `Option GoError`; `none` is `nil`.
* `core.Number` is the raw 64-bit word, a `Nat` read modulo `2 ^ 64`.
* A `float64` is its IEEE-754 binary64 bit pattern (`Float64.bits`).
* The statsd client is a `Sink`: a function that, given the calls already made and the next
  call, says whether that call fails.  `Export` returns the list of calls it made, in order,
  together with the error it returns.
-/

/-! ## Strings: `regexp.ReplaceAllString` and `strings.Replace` -/

namespace datadog

/-- Membership in the character class `[a-zA-Z0-9]` of the pattern `reg`
(`src/datadog.go:128`). -/
def isAlnum (c : Char) : Bool :=
  let n := c.toNat
  (97 ≤ n && n ≤ 122) || (65 ≤ n && n ≤ 90) || (48 ≤ n && n ≤ 57)

/-- The scan performed by `reg.ReplaceAllString(str, repl)` for `reg = [^a-zA-Z0-9]+`.
The pattern is one negated class under a greedy `+`, so the leftmost match starts at the
first character outside the class and extends over all characters outside the class that
follow it.  `inMatch` records that the scan is inside such a match, whose replacement has
already been written.  Text outside matches is copied. -/
def ReplaceAllString.scan (repl : List Char) (inMatch : Bool) : List Char → List Char
  | [] => []
  | c :: cs =>
    if !isAlnum c then
      if inMatch then scan repl true cs else repl ++ scan repl true cs
    else c :: scan repl false cs

/-- The function `reg.ReplaceAllString(str, repl)` with `reg = regexp.MustCompile("[^a-zA-Z0-9]+")`
(`src/datadog.go:128`); `repl` holds no `$`, so it is inserted literally. -/
def ReplaceAllString (str repl : String) : String :=
  String.mk (ReplaceAllString.scan repl.data false str.data)

/-- The scan of `strings.Replace(s, old, new, -1)` for a non-empty `old`: non-overlapping
occurrences of `old` are replaced from the left.  `skip` counts the characters of the
occurrence just replaced that are still to be passed over. -/
def stringsReplace.scan (old new : List Char) : Nat → List Char → List Char
  | _, [] => []
  | skip + 1, _ :: cs => scan old new skip cs
  | 0, c :: cs =>
    if old.isPrefixOf (c :: cs) then new ++ scan old new (old.length - 1) cs
    else c :: scan old new 0 cs

/-- The function `strings.Replace(s, old, new, -1)` for a non-empty `old`. -/
def stringsReplace (s old new : String) : String :=
  String.mk (stringsReplace.scan old.data new.data 0 s.data)

/-- The function `sanitizeString` (`src/datadog.go:131`), which `replaces all
non-alphanumerical characters to underscore`. -/
def sanitizeString (str : String) : String :=
  ReplaceAllString str "_"

/-- The function `sanitizeMetricName` (`src/datadog.go:119`), which `formats the custom
namespace and view name to` the `metric naming convention` of Datadog. -/
def sanitizeMetricName (nspace name : String) : String :=
  if nspace ≠ "" then
    let nspace := stringsReplace nspace " " ""
    sanitizeString nspace ++ "." ++ sanitizeString name
  else
    sanitizeString name

end datadog

/-! ### The sanitisation rule in the words of the specification -/

/-- The maximal runs of a string with respect to a class `p`: the string cut at every
position where membership in `p` changes. -/
def maximalRuns (p : Char → Bool) : List Char → List (List Char)
  | [] => []
  | c :: cs =>
    match maximalRuns p cs with
    | (d :: r) :: rs => if p c = p d then (c :: d :: r) :: rs else [c] :: (d :: r) :: rs
    | _ => [[c]]

/-- The specification of sanitisation: every maximal run of characters outside
`[A-Za-z0-9]` is replaced with a single underscore; the other runs are kept. -/
def sanitizeSpec (str : String) : String :=
  String.mk (((maximalRuns datadog.isAlnum str.data).map
    (fun run => if run.all (fun c => !datadog.isAlnum c) then ['_'] else run)).flatten)

/-! ## Aggregator selection (`src/selector.go`) -/

namespace datadog

/-- The type `metric.Kind` of the instrument kinds; `unrecognised` stands for every value of
the underlying integer type that is none of the three named constants. -/
inductive Kind where
  | CounterKind
  | MeasureKind
  | ObserverKind
  | unrecognised (raw : Nat)
  deriving DecidableEq

/-- The aggregator implementations `AggregatorFor` chooses between: `lastvalue.New()`,
`array.New()` and `sum.New()`. -/
inductive AggregatorImpl where
  | lastvalue
  | array
  | sum
  deriving DecidableEq

/-- The method `selectorDataDog.AggregatorFor` (`src/selector.go:19`), as a function of
`descriptor.MetricKind()`. -/
def AggregatorFor (metricKind : Kind) : AggregatorImpl :=
  match metricKind with
  | .ObserverKind => .lastvalue
  | .MeasureKind => .array
  | _ => .sum

end datadog

/-! ## Numbers (`core.Number`, `core.NumberKind`) and `float64` -/

/-- The type `core.Number`: a raw 64-bit word, read modulo `2 ^ 64`. -/
abbrev Number := Nat

/-- The type `core.NumberKind`; `unrecognised` stands for every value of the underlying
integer type that is none of the three named constants. -/
inductive NumberKind where
  | Int64NumberKind
  | Float64NumberKind
  | Uint64NumberKind
  | unrecognised (raw : Nat)
  deriving DecidableEq

/-- A `float64`, given by its IEEE-754 binary64 bit pattern: sign (bit 63), biased exponent
(bits 62..52), fraction (bits 51..0). -/
structure Float64 where
  bits : Nat
  deriving DecidableEq

/-- The sign bit of a `float64`; a negative number has sign bit `1`. -/
def Float64.signBit (f : Float64) : Nat := f.bits / 2 ^ 63 % 2

/-- Position of the highest set bit of `m` (`bits.Len64(m) - 1`), for `0 < m < 2 ^ fuel`. -/
def highBit : Nat → Nat → Nat
  | 0, _ => 0
  | fuel + 1, m => if m < 2 then 0 else highBit fuel (m / 2) + 1

/-- The conversion `float64(u)` of a `uint64` value `u`: the nearest binary64 number, ties to
even.  With `b` the position of the highest set bit, a value below `2 ^ 53` is exact; else
the low `b - 52` bits are rounded off (a carry out of the fraction moves into the exponent). -/
def Float64.ofUint64 (u : Nat) : Float64 :=
  let m := u % 2 ^ 64
  if m = 0 then ⟨0⟩
  else
    let b := highBit 64 m
    if b ≤ 52 then ⟨(b + 1023) * 2 ^ 52 + (m * 2 ^ (52 - b) - 2 ^ 52)⟩
    else
      let e := b - 52
      let q := m / 2 ^ e
      let r := m % 2 ^ e
      let q := if 2 ^ e < 2 * r ∨ (2 * r = 2 ^ e ∧ q % 2 = 1) then q + 1 else q
      ⟨(b + 1023) * 2 ^ 52 + (q - 2 ^ 52)⟩

/-- The conversion `float64(i)` of an `int64` value `i`: sign and rounded magnitude. -/
def Float64.ofInt64 (i : Int) : Float64 :=
  if i < 0 then ⟨2 ^ 63 + (Float64.ofUint64 i.natAbs).bits⟩ else Float64.ofUint64 i.toNat

/-- The method `Number.AsInt64`: the word read as a two's complement `int64`. -/
def Number.AsInt64 (n : Number) : Int :=
  if n % 2 ^ 64 < 2 ^ 63 then (n % 2 ^ 64 : Nat) else ((n % 2 ^ 64 : Nat) : Int) - 2 ^ 64

/-- The method `Number.AsUint64`: the word read as a `uint64`. -/
def Number.AsUint64 (n : Number) : Nat := n % 2 ^ 64

/-- The method `Number.AsFloat64`: the word read as the bit pattern of a `float64`. -/
def Number.AsFloat64 (n : Number) : Float64 := ⟨n % 2 ^ 64⟩

/-- The function `metricValue`, the same in `src/datadog.go:135` and
`src/exporter/datadog.go:149`.  The fall-through `float64(number)` converts the `uint64`
underlying `core.Number`. -/
def metricValue (kind : NumberKind) (number : Number) : Float64 :=
  match kind with
  | .Float64NumberKind => number.AsFloat64
  | .Int64NumberKind => Float64.ofInt64 number.AsInt64
  | .Uint64NumberKind => Float64.ofUint64 number.AsUint64
  | _ => Float64.ofUint64 number

/-- The argument `0.5` of `dist.Quantile(0.5)`: the binary64 number `2 ^ (-1)`. -/
def quantileMedian : Float64 := ⟨0x3FE0000000000000⟩

/-- The argument `0.95` of `dist.Quantile(0.95)`: the binary64 number nearest to `95/100`,
`0x1.E666666666666p-1`. -/
def quantileP95 : Float64 := ⟨0x3FEE666666666666⟩

/-! ## Errors -/

/-- A Go `error`, given by the text its `Error()` method returns. -/
structure GoError where
  msg : String
  deriving DecidableEq

/-- The call `fmt.Errorf(pre + "%s: %w", name, err)`: the formats of
`src/exporter/datadog.go` all end in `for %s: %w`.  The message of the wrapping error is the
format with `name` and the message of `err` filled in. -/
def Errorf (pre name : String) (err : GoError) : GoError :=
  ⟨pre ++ name ++ ": " ++ err.msg⟩

/-! ## Records of a checkpoint -/

/-- A label value; `Emit` is the string `label.Value.Emit()` returns. -/
structure Value where
  Emit : String
  deriving DecidableEq

/-- The type `core.KeyValue`: one label of a label set. -/
structure Label where
  Key : String
  Value : Value
  deriving DecidableEq

/-- The instrument descriptor: `Name()`, `MetricKind()`, `NumberKind()`. -/
structure Descriptor where
  Name : String
  MetricKind : datadog.Kind
  NumberKind : NumberKind

/-- The methods `Min` and `Max` of the capability `aggregator.MinMaxSumCount`. -/
structure MinMaxSumCount where
  Min : Except GoError Number
  Max : Except GoError Number

/-- The method `Quantile` of the capability `aggregator.Distribution`. -/
structure Distribution where
  Quantile : Float64 → Except GoError Number

/-- Modelled from the spec: the aggregator of a record with the capability interfaces of the
SDK package `aggregator` (`Points`, `MinMaxSumCount`, `Distribution`, `Sum`, `LastValue`),
which are declared outside `src/`.  An aggregator may satisfy any of the capabilities at the
same time; a field is `some` exactly when the type assertion to that interface succeeds, and
then holds what the interface's read methods return on the finalized checkpoint.
`LastValue` also returns a timestamp (a `Nat` here). -/
structure Aggregator where
  Points : Option (Except GoError (List Number))
  MinMaxSumCount : Option MinMaxSumCount
  Distribution : Option Distribution
  Sum : Option (Except GoError Number)
  LastValue : Option (Except GoError (Number × Nat))

/-- The type `export.Record`: descriptor, labels in iteration order, aggregator. -/
structure Record where
  descriptor : Descriptor
  labels : List Label
  aggregator : Aggregator

/-- Modelled from the spec: `CheckpointSet.ForEach`, an SDK interface implemented outside
`src/`: it calls `f` on the records of the checkpoint in iteration order and stops at the
first error, which it returns.  `σ` is the state `f` works on. -/
def ForEach {σ : Type} (f : Record → σ → σ × Option GoError) : List Record → σ → σ × Option GoError
  | [], st => (st, none)
  | r :: rest, st =>
    match f r st with
    | (st, some err) => (st, some err)
    | (st, none) => ForEach f rest st

/-! ## The sink (`statsd.Client`) -/

/-- The four client methods the exporters call. -/
inductive SinkOp where
  | Gauge
  | Count
  | Histogram
  | Distribution
  deriving DecidableEq

/-- The value argument of a client call: `float64` for `Gauge`, `Histogram` and
`Distribution`, `int64` for `Count`. -/
inductive SinkValue where
  | float64 (f : Float64)
  | int64 (i : Int)
  deriving DecidableEq

/-- One call of a client method: `op(name, value, tags, rate)`. -/
structure SinkCall where
  op : SinkOp
  name : String
  value : SinkValue
  tags : List String
  rate : Nat
  deriving DecidableEq

/-- The behaviour of the client: given the calls made so far and the next call, the error
that call returns (`none` for `nil`). -/
abbrev Sink := List SinkCall → SinkCall → Option GoError

/-- A client method is called: the call is added to the calls made, and the client's
answer is returned. -/
def clientCall (sink : Sink) (c : SinkCall) (calls : List SinkCall) :
    List SinkCall × Option GoError :=
  (calls ++ [c], sink calls c)

/-- The constant `rate` (`src/datadog.go:54`, `src/exporter/datadog.go:50`). -/
def rate : Nat := 1

/-- The local type `record` of both `Export` functions: a sub-metric name and the read that
yields its value. -/
structure GaugeRec where
  name : String
  f : Unit → Except GoError Number

/-! ## `src/exporter/datadog.go` -/

namespace exporter

/-- The type `Config` (`src/exporter/datadog.go:35`). -/
structure Config where
  StatsAddr : String
  UseDistribution : Bool

/-- The type `Exporter` (`src/exporter/datadog.go:45`); its client is the `Sink` passed to
`Export`. -/
structure Exporter where
  cfg : Config

/-- What `Export` did: the client calls it made, in order, and the error it returned. -/
structure ExportResult where
  calls : List SinkCall
  err : Option GoError

/-- The function `extractTags` (`src/exporter/datadog.go:133`): a slice of `itr.Len()` empty
strings, in which the label at index `i` of the iteration writes `Key:Value` at index `i`. -/
def extractTags (r : Record) : List String :=
  r.labels.enum.foldl
    (fun tags il => tags.set il.1 (il.2.Key ++ ":" ++ il.2.Value.Emit))
    (List.replicate r.labels.length "")

/-- The loop over `numbers` in the `aggregator.Points` case (`src/exporter/datadog.go:69`):
one call of `f` per point, returning at the first call that fails. -/
def Export.points (sink : Sink) (f : SinkOp) (name : String) (kind : NumberKind)
    (tags : List String) : List Number → List SinkCall → List SinkCall × Option GoError
  | [], calls => (calls, none)
  | n :: numbers, calls =>
    match clientCall sink ⟨f, name, .float64 (metricValue kind n), tags, rate⟩ calls with
    | (calls, some err) => (calls, some err)
    | (calls, none) => Export.points sink f name kind tags numbers calls

/-- The loop over `recs` in the `aggregator.MinMaxSumCount` case
(`src/exporter/datadog.go:100`): read, then gauge; a failed read returns the wrapped error, a
failed gauge call returns the client's error. -/
def Export.gauges (sink : Sink) (name : String) (kind : NumberKind) (tags : List String) :
    List GaugeRec → List SinkCall → List SinkCall × Option GoError
  | [], calls => (calls, none)
  | rec :: recs, calls =>
    match rec.f () with
    | .error err => (calls, some (Errorf "error getting MinMaxSumCount value for " name err))
    | .ok val =>
      match clientCall sink ⟨.Gauge, rec.name, .float64 (metricValue kind val), tags, rate⟩ calls with
      | (calls, some err) => (calls, some err)
      | (calls, none) => Export.gauges sink name kind tags recs calls

/-- The function passed to `cs.ForEach` in `Exporter.Export` (`src/exporter/datadog.go:54`):
the export of one record.  The type switch takes the first case whose interface the
aggregator satisfies. -/
def Export.record (e : Exporter) (sink : Sink) (r : Record) (calls : List SinkCall) :
    List SinkCall × Option GoError :=
  let agg := r.aggregator
  let name := r.descriptor.Name
  let tags := extractTags r
  match agg.Points with
  | some points =>
    match points with
    | .error err => (calls, some (Errorf "error getting Points for " name err))
    | .ok numbers =>
      let f := if e.cfg.UseDistribution then SinkOp.Distribution else SinkOp.Histogram
      Export.points sink f name r.descriptor.NumberKind tags numbers calls
  | none =>
  match agg.MinMaxSumCount with
  | some mmsc =>
    let recs : List GaugeRec := [⟨name ++ ".min", fun _ => mmsc.Min⟩, ⟨name ++ ".max", fun _ => mmsc.Max⟩]
    let recs := match agg.Distribution with
      | some dist =>
        recs ++ [⟨name ++ ".median", fun _ => dist.Quantile quantileMedian⟩,
                 ⟨name ++ ".p95", fun _ => dist.Quantile quantileP95⟩]
      | none => recs
    Export.gauges sink name r.descriptor.NumberKind tags recs calls
  | none =>
  match agg.Sum with
  | some sum =>
    match sum with
    | .error err => (calls, some (Errorf "error getting Sum value for " name err))
    | .ok val => clientCall sink ⟨.Count, name, .int64 val.AsInt64, tags, rate⟩ calls
  | none =>
  match agg.LastValue with
  | some lastValue =>
    match lastValue with
    | .error err => (calls, some (Errorf "error getting LastValue for " name err))
    | .ok (val, _) =>
      clientCall sink ⟨.Gauge, name, .float64 (metricValue r.descriptor.NumberKind val), tags, rate⟩ calls
  | none => (calls, none)

/-- The method `Exporter.Export` (`src/exporter/datadog.go:53`) on the checkpoint with
records `cs` (in iteration order). -/
def Export (e : Exporter) (sink : Sink) (cs : List Record) : ExportResult :=
  let out := ForEach (Export.record e sink) cs []
  ⟨out.1, out.2⟩

end exporter

/-! ## Go slices

`src/datadog.go` builds the tag list of a record with `append`, starting from the configured
global tags.  Whether that can write to the configured list is a matter of the backing arrays,
so slices are modelled with them. -/

/-- A slice header: the backing array (its index in the heap), the offset of the slice's
first element in that array, length and capacity. -/
structure Slice where
  array : Nat
  off : Nat
  len : Nat
  cap : Nat
  deriving DecidableEq

/-- The backing arrays allocated so far. -/
structure Heap where
  arrays : List (List String)
  deriving DecidableEq

/-- The elements of a slice. -/
def Heap.load (h : Heap) (s : Slice) : List String :=
  ((h.arrays.getD s.array []).drop s.off).take s.len

/-- The slice is empty or points into an array of the heap. -/
def Heap.Allocated (h : Heap) (s : Slice) : Prop :=
  s.len = 0 ∨ s.array < h.arrays.length

instance (h : Heap) (s : Slice) : Decidable (h.Allocated s) := by
  unfold Heap.Allocated; infer_instance

/-- The composite literal `[]string{}`: a slice of length and capacity `0` of its own. -/
def emptySliceLit (h : Heap) : Heap × Slice :=
  (⟨h.arrays ++ [[]]⟩, ⟨h.arrays.length, 0, 0, 0⟩)

/-- The built-in `append(s, xs...)`.  When the capacity of `s` suffices, the elements are
written into the backing array of `s` behind its last element.  Otherwise a new array is
allocated that holds the elements of `s`, then `xs`, then zero values up to the new capacity;
`grow oldCap needed` is the capacity the runtime chooses, at least `needed`. -/
def goAppend (grow : Nat → Nat → Nat) (h : Heap) (s : Slice) (xs : List String) : Heap × Slice :=
  let need := s.len + xs.length
  if need ≤ s.cap then
    let arr := h.arrays.getD s.array []
    let pos := s.off + s.len
    (⟨h.arrays.set s.array (arr.take pos ++ xs ++ arr.drop (pos + xs.length))⟩,
      { s with len := need })
  else
    let newcap := max need (grow s.cap need)
    (⟨h.arrays ++ [h.load s ++ xs ++ List.replicate (newcap - need) ""]⟩,
      ⟨h.arrays.length, 0, need, newcap⟩)

/-! ## `src/datadog.go` -/

namespace datadog

/-- The type `Options` (`src/datadog.go:37`). -/
structure Options where
  Namespace : String
  StatsAddr : String
  Tags : Slice

/-- The type `exporter` (`src/datadog.go:49`); its client is the `Sink` passed to `Export`. -/
structure exporter where
  opts : Options

/-- What `Export` did: the heap it left, the client calls it made, in order, and the error
it returned. -/
structure ExportResult where
  heap : Heap
  calls : List SinkCall
  err : Option GoError

/-- The tag slice of a record (`src/datadog.go:60-66`):
`tags := append([]string{}, e.opts.Tags...)`, then `tags = append(tags, tag)` for every
label of the iteration. -/
def Export.tags (grow : Nat → Nat → Nat) (e : exporter) (r : Record) (h : Heap) : Heap × Slice :=
  let lit := emptySliceLit h
  let start := goAppend grow lit.1 lit.2 (lit.1.load e.opts.Tags)
  r.labels.foldl
    (fun st label => goAppend grow st.1 st.2 [label.Key ++ ":" ++ label.Value.Emit])
    start

/-- The loop over `recs` in the `aggregator.MinMaxSumCount` case (`src/datadog.go:93`):
read, then gauge; a failed read returns the error of the read, and what the gauge call
returns is dropped. -/
def Export.gauges (sink : Sink) (kind : NumberKind) (tags : List String) :
    List GaugeRec → List SinkCall → List SinkCall × Option GoError
  | [], calls => (calls, none)
  | rec :: recs, calls =>
    match rec.f () with
    | .error err => (calls, some err)
    | .ok val =>
      Export.gauges sink kind tags recs
        (clientCall sink ⟨.Gauge, rec.name, .float64 (metricValue kind val), tags, rate⟩ calls).1

/-- The function passed to `cs.ForEach` in `exporter.Export` (`src/datadog.go:57`): the
export of one record. -/
def Export.record (grow : Nat → Nat → Nat) (e : exporter) (sink : Sink) (r : Record)
    (st : Heap × List SinkCall) : (Heap × List SinkCall) × Option GoError :=
  let agg := r.aggregator
  let name := sanitizeMetricName e.opts.Namespace r.descriptor.Name
  let built := Export.tags grow e r st.1
  let h := built.1
  let tags := h.load built.2
  let calls := st.2
  match agg.MinMaxSumCount with
  | some mmsc =>
    let recs : List GaugeRec := [⟨name ++ ".min", fun _ => mmsc.Min⟩, ⟨name ++ ".max", fun _ => mmsc.Max⟩]
    let recs := match agg.Distribution with
      | some dist =>
        recs ++ [⟨name ++ ".median", fun _ => dist.Quantile quantileMedian⟩,
                 ⟨name ++ ".p95", fun _ => dist.Quantile quantileP95⟩]
      | none => recs
    let out := Export.gauges sink r.descriptor.NumberKind tags recs calls
    ((h, out.1), out.2)
  | none =>
  match agg.Sum with
  | some sum =>
    match sum with
    | .error err => ((h, calls), some err)
    | .ok val =>
      ((h, (clientCall sink
        ⟨.Gauge, name ++ ".count", .float64 (metricValue r.descriptor.NumberKind val), tags, rate⟩
        calls).1), none)
  | none =>
  match agg.LastValue with
  | some lastValue =>
    match lastValue with
    | .error err => ((h, calls), some err)
    | .ok (val, _) =>
      ((h, (clientCall sink
        ⟨.Gauge, name ++ ".count", .float64 (metricValue r.descriptor.NumberKind val), tags, rate⟩
        calls).1), none)
  | none => ((h, calls), none)

/-- The method `exporter.Export` (`src/datadog.go:56`) on the checkpoint with records `cs`
(in iteration order), started on the heap `h`. -/
def Export (grow : Nat → Nat → Nat) (e : exporter) (sink : Sink) (h : Heap) (cs : List Record) :
    ExportResult :=
  let out := ForEach (Export.record grow e sink) cs (h, [])
  ⟨out.1.1, out.1.2, out.2⟩

end datadog

/-! ## Auxiliary notions used to state the properties -/

/-- The tag of a label: `string(label.Key) + ":" + label.Value.Emit()`. -/
def labelTag (l : Label) : String := l.Key ++ ":" ++ l.Value.Emit

/-- A gauge call with sample rate 1 whose value is normalised by `metricValue`. -/
def gaugeCall (name : String) (kind : NumberKind) (tags : List String) (v : Number) : SinkCall :=
  ⟨.Gauge, name, .float64 (metricValue kind v), tags, 1⟩

/-- The gauges of the specification for a `MinMaxSumCount` record: `<name>.min` with the Min
value, then `<name>.max` with the Max value. -/
def minMaxGauges (name : String) (kind : NumberKind) (tags : List String) (vmin vmax : Number) :
    List SinkCall :=
  [gaugeCall (name ++ ".min") kind tags vmin, gaugeCall (name ++ ".max") kind tags vmax]

/-- The further gauges of the specification when the aggregator also satisfies
`Distribution`: `<name>.median` with the 0.5 quantile, then `<name>.p95` with the 0.95
quantile. -/
def quantileGauges (name : String) (kind : NumberKind) (tags : List String) (vmed vp95 : Number) :
    List SinkCall :=
  [gaugeCall (name ++ ".median") kind tags vmed, gaugeCall (name ++ ".p95") kind tags vp95]

/-- The calls `new`, made one after the other after the calls `before`, ending with result
`res`: every call but the last succeeded, and if the last one failed, `res` is its error.
(`res` is not constrained when every call succeeded: a read may have failed.) -/
inductive Run (sink : Sink) : List SinkCall → List SinkCall → Option GoError → Prop where
  | done (before : List SinkCall) (res : Option GoError) : Run sink before [] res
  | fail (before : List SinkCall) (c : SinkCall) (err : GoError) :
      sink before c = some err → Run sink before [c] (some err)
  | step (before : List SinkCall) (c : SinkCall) (new : List SinkCall) (res : Option GoError) :
      sink before c = none → Run sink (before ++ [c]) new res → Run sink before (c :: new) res

/-- A character allowed in a sanitised name: `[A-Za-z0-9_]`. -/
def allowedChar (c : Char) : Bool := datadog.isAlnum c || c == '_'

/-- The slice `s`, in the heap `h`, was built by `append` from a literal allocated after the
heap `h0`: the arrays of `h0` are still the first arrays of `h`, and `s` lies in a later
array, at offset `0`, within its capacity. -/
def BuiltAfter (h0 h : Heap) (s : Slice) : Prop :=
  (∃ t, h.arrays = h0.arrays ++ t) ∧ h0.arrays.length ≤ s.array ∧ s.array < h.arrays.length
    ∧ s.off = 0 ∧ s.len ≤ s.cap ∧ s.cap ≤ (h.arrays.getD s.array []).length

/-! ## Concrete inputs -/

namespace Sample

/-- A sink on which every call succeeds. -/
def okSink : Sink := fun _ _ => none

/-- A sink on which every call fails. -/
def failingSink : Sink := fun _ _ => some ⟨"write: connection refused"⟩

/-- A sink on which the call number `k` (from `0`) fails and the others succeed. -/
def failAt (k : Nat) : Sink :=
  fun before _ => if before.length = k then some ⟨"write: connection refused"⟩ else none

/-- The growth of capacities on `append`: doubling. -/
def grow : Nat → Nat → Nat := fun oldCap _ => 2 * oldCap

/-- The label set `{region: "us"}`. -/
def labels : List Label := [⟨"region", ⟨"us"⟩⟩]

/-- A heap that holds the array of the global tags `["env:prod"]`. -/
def heap : Heap := ⟨[["env:prod"]]⟩

/-- The slice of the global tags `["env:prod"]` in `heap`. -/
def globalTags : Slice := ⟨0, 0, 1, 1⟩

/-- An exporter of `src/datadog.go` with namespace `My Service` and global tags
`["env:prod"]`. -/
def legacy : datadog.exporter := ⟨⟨"My Service", "", globalTags⟩⟩

/-- An exporter of `src/datadog.go` without namespace, with global tags `["env:prod"]`. -/
def legacyPlain : datadog.exporter := ⟨⟨"", "", globalTags⟩⟩

/-- An exporter of `src/exporter/datadog.go` that sends histograms. -/
def histogramExporter : exporter.Exporter := ⟨⟨"", false⟩⟩

/-- An exporter of `src/exporter/datadog.go` that sends distributions. -/
def distributionExporter : exporter.Exporter := ⟨⟨"", true⟩⟩

/-- A counter record `requests` of unsigned kind whose sum is `v`. -/
def sumRecord (v : Number) : Record :=
  ⟨⟨"requests", .CounterKind, .Uint64NumberKind⟩, labels, ⟨none, none, none, some (.ok v), none⟩⟩

/-- A counter record `http requests` whose `Sum()` read fails. -/
def failingSumRecord : Record :=
  ⟨⟨"http requests", .CounterKind, .Int64NumberKind⟩, labels,
    ⟨none, none, none, some (.error ⟨"boom"⟩), none⟩⟩

/-- A measure record `latency ms` that retains the points `3, 5, 4` and satisfies every other
capability as well. -/
def pointsRecord : Record :=
  ⟨⟨"latency ms", .MeasureKind, .Uint64NumberKind⟩, labels,
    ⟨some (.ok [3, 5, 4]), some ⟨.ok 3, .ok 5⟩, some ⟨fun _ => .ok 4⟩, some (.ok 12),
      some (.ok (4, 0))⟩⟩

/-- A measure record `latency ms` with `MinMaxSumCount` (min `3`, max `5`) and without
`Distribution`. -/
def minMaxRecord : Record :=
  ⟨⟨"latency ms", .MeasureKind, .Uint64NumberKind⟩, labels,
    ⟨none, some ⟨.ok 3, .ok 5⟩, none, some (.ok 12), none⟩⟩

/-- A measure record `latency ms` with `MinMaxSumCount` (min `3`, max `5`) and
`Distribution` (median `4`, 0.95 quantile `5`). -/
def distributionRecord : Record :=
  ⟨⟨"latency ms", .MeasureKind, .Uint64NumberKind⟩, labels,
    ⟨none, some ⟨.ok 3, .ok 5⟩,
      some ⟨fun q => if q = quantileMedian then .ok 4 else .ok 5⟩, some (.ok 12), none⟩⟩

end Sample

/-! ## Lemmas on sanitisation -/

/-- The first run of a non-empty string starts with its first character. -/
theorem maximalRuns_cons_shape (p : Char → Bool) (ds : List Char) :
    ∀ d, ∃ r rs, maximalRuns p (d :: ds) = (d :: r) :: rs ∧ ∀ x ∈ r, p x = p d := by
  induction ds with
  | nil => intro d; exact ⟨[], [], by simp [maximalRuns], by simp⟩
  | cons e es ih =>
    intro d
    obtain ⟨r, rs, hr, hall⟩ := ih e
    by_cases hp : p d = p e
    · refine ⟨e :: r, rs, ?_, ?_⟩
      · rw [maximalRuns, hr]; simp [hp]
      · intro x hx
        rcases List.mem_cons.1 hx with rfl | hx
        · exact hp.symm
        · rw [hall x hx, hp]
    · refine ⟨[], (e :: r) :: rs, ?_, by simp⟩
      rw [maximalRuns, hr]; simp [hp]

/-- The runs of `maximalRuns` put together give the string back. -/
theorem maximalRuns_flatten (p : Char → Bool) (l : List Char) :
    (maximalRuns p l).flatten = l := by
  induction l with
  | nil => simp [maximalRuns]
  | cons c cs ih =>
    cases cs with
    | nil => simp [maximalRuns]
    | cons d ds =>
      obtain ⟨r, rs, hr, -⟩ := maximalRuns_cons_shape p ds d
      rw [hr] at ih
      rw [maximalRuns, hr]
      by_cases hp : p c = p d
      · simp only [hp, if_true, List.flatten_cons] at ih ⊢
        rw [← ih]; simp
      · simp only [hp, if_false, List.flatten_cons] at ih ⊢
        rw [← ih]; simp

/-- Every run of `maximalRuns` is non-empty and lies inside the class or outside it. -/
theorem maximalRuns_homogeneous (p : Char → Bool) (l : List Char) :
    ∀ run ∈ maximalRuns p l, ∃ c r, run = c :: r ∧ ∀ x ∈ r, p x = p c := by
  induction l with
  | nil => simp [maximalRuns]
  | cons c cs ih =>
    cases cs with
    | nil => intro run hrun; simp [maximalRuns] at hrun; exact ⟨c, [], hrun, by simp⟩
    | cons d ds =>
      obtain ⟨r, rs, hr, hall⟩ := maximalRuns_cons_shape p ds d
      rw [hr] at ih
      rw [maximalRuns, hr]
      intro run hrun
      by_cases hp : p c = p d
      · simp only [hp, if_true, List.mem_cons] at hrun
        rcases hrun with rfl | hrun
        · refine ⟨c, d :: r, rfl, ?_⟩
          intro x hx
          rcases List.mem_cons.1 hx with rfl | hx
          · exact hp.symm
          · rw [hall x hx, hp]
        · exact ih run (List.mem_cons_of_mem _ hrun)
      · simp only [hp, if_false, List.mem_cons] at hrun
        rcases hrun with rfl | hrun
        · exact ⟨c, [], rfl, by simp⟩
        · exact ih run (List.mem_cons.2 hrun)

/-- Neighbouring runs of `maximalRuns` lie on different sides of the class: no run can be
extended. -/
theorem maximalRuns_maximal (p : Char → Bool) (l : List Char) :
    List.Chain' (fun a b => ∀ x ∈ a.getLast?, ∀ y ∈ b.head?, p x ≠ p y) (maximalRuns p l) := by
  induction l with
  | nil => simp [maximalRuns]
  | cons c cs ih =>
    cases cs with
    | nil => simp [maximalRuns]
    | cons d ds =>
      obtain ⟨r, rs, hr, hall⟩ := maximalRuns_cons_shape p ds d
      rw [hr] at ih
      rw [maximalRuns, hr]
      by_cases hp : p c = p d
      · simp only [hp, if_true]
        cases rs with
        | nil => simp
        | cons s ss =>
          rw [List.chain'_cons] at ih ⊢
          refine ⟨?_, ih.2⟩
          intro x hx y hy
          exact ih.1 x (by simpa using hx) y hy
      · simp only [hp, if_false]
        rw [List.chain'_cons]
        refine ⟨?_, ih⟩
        intro x hx y hy
        simp at hx hy
        subst hx; subst hy
        exact hp

/-- The body of `sanitizeSpec` on a list of characters. -/
theorem sanitizeSpec_data (s : String) :
    (sanitizeSpec s).data = ((maximalRuns datadog.isAlnum s.data).map
      (fun run => if run.all (fun c => !datadog.isAlnum c) then ['_'] else run)).flatten := rfl

/-- The body of `sanitizeString` on a list of characters. -/
theorem sanitizeString_data (s : String) :
    (datadog.sanitizeString s).data = datadog.ReplaceAllString.scan ['_'] false s.data := rfl

/-- The specification's replacement copies a leading alphanumeric character. -/
theorem specRuns_cons_alnum (d : Char) (ds : List Char) (hd : datadog.isAlnum d = true) :
    ((maximalRuns datadog.isAlnum (d :: ds)).map
      (fun run => if run.all (fun c => !datadog.isAlnum c) then ['_'] else run)).flatten
    = d :: ((maximalRuns datadog.isAlnum ds).map
      (fun run => if run.all (fun c => !datadog.isAlnum c) then ['_'] else run)).flatten := by
  cases ds with
  | nil => simp [maximalRuns, hd]
  | cons e es =>
    obtain ⟨r, rs, hr, -⟩ := maximalRuns_cons_shape datadog.isAlnum es e
    rw [maximalRuns, hr]
    by_cases hp : datadog.isAlnum d = datadog.isAlnum e
    · have he : datadog.isAlnum e = true := by rw [← hp, hd]
      simp [hp, hd, he]
    · have he : datadog.isAlnum e = false := by
        cases h : datadog.isAlnum e
        · rfl
        · exact absurd (hd.trans h.symm) hp
      simp [hd, he]

/-- The specification's replacement writes one underscore for a leading character outside
the class, unless the next character is outside the class too. -/
theorem specRuns_cons_other (c d : Char) (ds : List Char) (hc : datadog.isAlnum c = false) :
    ((maximalRuns datadog.isAlnum (c :: d :: ds)).map
      (fun run => if run.all (fun c => !datadog.isAlnum c) then ['_'] else run)).flatten
    = if datadog.isAlnum d then
        '_' :: ((maximalRuns datadog.isAlnum (d :: ds)).map
          (fun run => if run.all (fun c => !datadog.isAlnum c) then ['_'] else run)).flatten
      else
        ((maximalRuns datadog.isAlnum (d :: ds)).map
          (fun run => if run.all (fun c => !datadog.isAlnum c) then ['_'] else run)).flatten := by
  obtain ⟨r, rs, hr, hall⟩ := maximalRuns_cons_shape datadog.isAlnum ds d
  rw [maximalRuns, hr]
  by_cases hd : datadog.isAlnum d = true
  · simp [hc, hd]
  · have hd : datadog.isAlnum d = false := by simpa using hd
    have hr : ∀ x ∈ r, datadog.isAlnum x = false := fun x hx => by rw [hall x hx, hd]
    simp only [hc, hd, if_true, List.map_cons, List.flatten_cons, List.all_cons, Bool.not_false,
      Bool.true_and, Bool.false_eq_true, if_false]
    have hr2 : (r.all fun c => !datadog.isAlnum c) = true := by
      rw [List.all_eq_true]; intro x hx; simp [hr x hx]
    simp [hr2]

/-- The scan of `ReplaceAllString` computes the specification's replacement of maximal
runs. -/
theorem scan_eq_specRuns (l : List Char) :
    datadog.ReplaceAllString.scan ['_'] false l
      = ((maximalRuns datadog.isAlnum l).map
          (fun run => if run.all (fun c => !datadog.isAlnum c) then ['_'] else run)).flatten
    ∧ ∀ c, datadog.isAlnum c = false →
      '_' :: datadog.ReplaceAllString.scan ['_'] true l
        = ((maximalRuns datadog.isAlnum (c :: l)).map
            (fun run => if run.all (fun c => !datadog.isAlnum c) then ['_'] else run)).flatten := by
  induction l with
  | nil =>
    refine ⟨by simp [datadog.ReplaceAllString.scan, maximalRuns], ?_⟩
    intro c hc
    simp [datadog.ReplaceAllString.scan, maximalRuns, hc]
  | cons d ds ih =>
    by_cases hd : datadog.isAlnum d = true
    · have h1 : datadog.ReplaceAllString.scan ['_'] false (d :: ds)
          = ((maximalRuns datadog.isAlnum (d :: ds)).map
              (fun run => if run.all (fun c => !datadog.isAlnum c) then ['_'] else run)).flatten := by
        rw [specRuns_cons_alnum d ds hd, ← ih.1]
        simp [datadog.ReplaceAllString.scan, hd]
      refine ⟨h1, ?_⟩
      intro c hc
      rw [specRuns_cons_other c d ds hc, ← h1]
      simp [datadog.ReplaceAllString.scan, hd]
    · have hd : datadog.isAlnum d = false := by simpa using hd
      have h1 : datadog.ReplaceAllString.scan ['_'] false (d :: ds)
          = ((maximalRuns datadog.isAlnum (d :: ds)).map
              (fun run => if run.all (fun c => !datadog.isAlnum c) then ['_'] else run)).flatten := by
        rw [← ih.2 d hd]
        simp [datadog.ReplaceAllString.scan, hd]
      refine ⟨h1, ?_⟩
      intro c hc
      rw [specRuns_cons_other c d ds hc, ← ih.2 d hd]
      simp [datadog.ReplaceAllString.scan, hd]

/-- The scan keeps the alphanumeric characters, in order. -/
theorem scan_filter_isAlnum (l : List Char) (b : Bool) :
    (datadog.ReplaceAllString.scan ['_'] b l).filter datadog.isAlnum = l.filter datadog.isAlnum := by
  induction l generalizing b with
  | nil => simp [datadog.ReplaceAllString.scan]
  | cons d ds ih =>
    have hu : datadog.isAlnum '_' = false := by decide
    by_cases hd : datadog.isAlnum d = true
    · simp [datadog.ReplaceAllString.scan, hd, ih]
    · have hd : datadog.isAlnum d = false := by simpa using hd
      cases b <;> simp [datadog.ReplaceAllString.scan, hd, ih, hu]

/-- The scan copies a string of alphanumeric characters. -/
theorem scan_of_all_isAlnum (l : List Char) (h : ∀ c ∈ l, datadog.isAlnum c = true) (b : Bool) :
    datadog.ReplaceAllString.scan ['_'] b l = l := by
  induction l generalizing b with
  | nil => simp [datadog.ReplaceAllString.scan]
  | cons d ds ih =>
    have hd := h d (List.mem_cons_self _ _)
    simp [datadog.ReplaceAllString.scan, hd, ih (fun c hc => h c (List.mem_cons_of_mem _ hc))]

/-- The characters the scan writes are alphanumeric or the underscore. -/
theorem scan_allowed (l : List Char) (b : Bool) :
    ∀ c ∈ datadog.ReplaceAllString.scan ['_'] b l, datadog.isAlnum c = true ∨ c = '_' := by
  induction l generalizing b with
  | nil => simp [datadog.ReplaceAllString.scan]
  | cons d ds ih =>
    intro c hc
    by_cases hd : datadog.isAlnum d = true
    · simp only [datadog.ReplaceAllString.scan, hd, Bool.not_true, Bool.false_eq_true, if_false,
        List.mem_cons] at hc
      rcases hc with rfl | hc
      · exact Or.inl hd
      · exact ih _ c hc
    · have hd : datadog.isAlnum d = false := by simpa using hd
      cases b
      · simp only [datadog.ReplaceAllString.scan, hd, Bool.not_false, if_true, Bool.false_eq_true,
          if_false, List.cons_append, List.nil_append, List.mem_cons] at hc
        rcases hc with rfl | hc
        · exact Or.inr rfl
        · exact ih _ c hc
      · simp only [datadog.ReplaceAllString.scan, hd, Bool.not_false, if_true] at hc
        exact ih _ c hc

/-- Claim C1.  For every string `s`, `sanitizeString s` is `s` with every maximal run of
characters outside `[A-Za-z0-9]` replaced by exactly one underscore (`sanitizeSpec`, over
`maximalRuns`: the runs put together give `s`, each run is non-empty and lies inside the
class or outside it, and neighbouring runs lie on different sides); its alphanumeric
characters are those of `s` in the same order; a string made only of alphanumeric characters
is returned unchanged; and the three examples of the specification evaluate as stated. -/
theorem C1_sanitizeString_replaces_maximal_runs :
    (∀ s : String, datadog.sanitizeString s = sanitizeSpec s)
    ∧ (∀ s : String, (maximalRuns datadog.isAlnum s.data).flatten = s.data
        ∧ (∀ run ∈ maximalRuns datadog.isAlnum s.data,
            ∃ c r, run = c :: r ∧ ∀ x ∈ r, datadog.isAlnum x = datadog.isAlnum c)
        ∧ List.Chain' (fun a b => ∀ x ∈ a.getLast?, ∀ y ∈ b.head?,
            datadog.isAlnum x ≠ datadog.isAlnum y) (maximalRuns datadog.isAlnum s.data))
    ∧ (∀ s : String, (datadog.sanitizeString s).data.filter datadog.isAlnum
          = s.data.filter datadog.isAlnum)
    ∧ (∀ s : String, (∀ c ∈ s.data, datadog.isAlnum c = true) → datadog.sanitizeString s = s)
    ∧ datadog.sanitizeString "request.latency ms" = "request_latency_ms"
    ∧ datadog.sanitizeString "a--b" = "a_b"
    ∧ datadog.sanitizeString "ALLcaps123" = "ALLcaps123" := by
  refine ⟨?_, ?_, ?_, ?_, by decide, by decide, by decide⟩
  · intro s
    apply String.ext
    rw [sanitizeString_data, sanitizeSpec_data]
    exact (scan_eq_specRuns s.data).1
  · intro s
    exact ⟨maximalRuns_flatten _ _, maximalRuns_homogeneous _ _, maximalRuns_maximal _ _⟩
  · intro s
    rw [sanitizeString_data]
    exact scan_filter_isAlnum s.data false
  · intro s h
    apply String.ext
    rw [sanitizeString_data]
    exact scan_of_all_isAlnum s.data h false

/-- Witness of C1 at the string `ALLcaps123`, which is made of alphanumeric characters. -/
theorem C1_sanitizeString_witness :
    (∀ c ∈ "ALLcaps123".data, datadog.isAlnum c = true)
    ∧ datadog.sanitizeString "ALLcaps123" = "ALLcaps123" :=
  ⟨by decide, C1_sanitizeString_replaces_maximal_runs.2.2.2.1 "ALLcaps123" (by decide)⟩

/-- Claim C2, as amended.  With namespace `My Service` and name `errors!`,
`sanitizeMetricName` returns `MyService.errors_`: the spaces of the namespace are removed
before it is sanitised, so no underscore stands for them. -/
theorem C2_sanitizeMetricName_strips_namespace_spaces :
    datadog.sanitizeMetricName "My Service" "errors!" = "MyService.errors_" := by
  decide

/-- Claim C2 as stated fails: with namespace `My Service` and name `errors!`,
`sanitizeMetricName` does not return `My_Service.errors_`. -/
theorem C2_counterexample_stated_name :
    datadog.sanitizeMetricName "My Service" "errors!" ≠ "My_Service.errors_" := by
  decide

/-- Claim C10.  `AggregatorFor` returns the last-value aggregator for the observer kind, the
array aggregator for the measure kind and the sum aggregator for every other kind, the
counter kind and every unrecognised kind among them; it is a total function. -/
theorem C10_AggregatorFor_by_kind :
    datadog.AggregatorFor .ObserverKind = .lastvalue
    ∧ datadog.AggregatorFor .MeasureKind = .array
    ∧ datadog.AggregatorFor .CounterKind = .sum
    ∧ (∀ raw, datadog.AggregatorFor (.unrecognised raw) = .sum)
    ∧ (∀ k, k ≠ datadog.Kind.ObserverKind → k ≠ datadog.Kind.MeasureKind →
        datadog.AggregatorFor k = .sum) := by
  refine ⟨rfl, rfl, rfl, fun _ => rfl, ?_⟩
  intro k h1 h2
  cases k with
  | CounterKind => rfl
  | MeasureKind => exact absurd rfl h2
  | ObserverKind => exact absurd rfl h1
  | unrecognised raw => rfl

/-- Witness of C10 at an unrecognised kind. -/
theorem C10_AggregatorFor_witness :
    datadog.Kind.unrecognised 7 ≠ datadog.Kind.ObserverKind
    ∧ datadog.Kind.unrecognised 7 ≠ datadog.Kind.MeasureKind
    ∧ datadog.AggregatorFor (.unrecognised 7) = .sum :=
  ⟨by decide, by decide,
    C10_AggregatorFor_by_kind.2.2.2.2 (.unrecognised 7) (by decide) (by decide)⟩

/-! ## Lemmas on `ForEach` and on the loops of the exporters -/

/-- The iteration over a checkpoint in two parts. -/
theorem ForEach_append {σ : Type} (f : Record → σ → σ × Option GoError) (xs ys : List Record)
    (st : σ) :
    ForEach f (xs ++ ys) st
      = match ForEach f xs st with
        | (st1, some err) => (st1, some err)
        | (st1, none) => ForEach f ys st1 := by
  induction xs generalizing st with
  | nil => simp [ForEach]
  | cons x xs ih =>
    simp only [List.cons_append, ForEach]
    rcases hfx : f x st with ⟨st1, _ | err⟩
    · exact ih st1
    · rfl

/-- The iteration goes on after a part that raised no error. -/
theorem ForEach_append_of_ok {σ : Type} (f : Record → σ → σ × Option GoError)
    (xs ys : List Record) (st : σ) (h : (ForEach f xs st).2 = none) :
    ForEach f (xs ++ ys) st = ForEach f ys (ForEach f xs st).1 := by
  rw [ForEach_append]
  rcases hfx : ForEach f xs st with ⟨st1, _ | err⟩
  · rfl
  · rw [hfx] at h; cases h

/-- The iteration stops at a part that raised an error. -/
theorem ForEach_append_of_error {σ : Type} (f : Record → σ → σ × Option GoError)
    (xs ys : List Record) (st : σ) (err : GoError) (h : (ForEach f xs st).2 = some err) :
    ForEach f (xs ++ ys) st = ForEach f xs st := by
  rw [ForEach_append]
  rcases hfx : ForEach f xs st with ⟨st1, _ | err1⟩
  · rw [hfx] at h; cases h
  · rfl

/-- The iteration over one record is the export of that record. -/
theorem ForEach_singleton {σ : Type} (f : Record → σ → σ × Option GoError) (r : Record)
    (st : σ) : ForEach f [r] st = f r st := by
  simp only [ForEach]
  rcases hfx : f r st with ⟨st1, _ | err⟩ <;> rfl

/-- The loop of `extractTags` fills the slice from the left. -/
theorem extractTags_fill (ls : List Label) :
    ∀ done : List String,
      (ls.enumFrom done.length).foldl
          (fun tags il => tags.set il.1 (il.2.Key ++ ":" ++ il.2.Value.Emit))
          (done ++ List.replicate ls.length "")
        = done ++ ls.map (fun l => l.Key ++ ":" ++ l.Value.Emit) := by
  induction ls with
  | nil => intro done; simp
  | cons l ls ih =>
    intro done
    have hset : (done ++ List.replicate (ls.length + 1) "").set done.length
          (l.Key ++ ":" ++ l.Value.Emit)
        = (done ++ [l.Key ++ ":" ++ l.Value.Emit]) ++ List.replicate ls.length "" := by
      rw [List.replicate_succ, List.set_append_right _ _ (Nat.le_refl _)]
      simp
    have hlen : (done ++ [l.Key ++ ":" ++ l.Value.Emit]).length = done.length + 1 := by simp
    simp only [List.enumFrom_cons, List.foldl_cons, List.length_cons, hset]
    rw [← hlen, ih]
    simp

/-- The function `extractTags` returns the tags of the labels in iteration order. -/
theorem extractTags_eq_map (r : Record) :
    exporter.extractTags r = r.labels.map labelTag := by
  have h := extractTags_fill r.labels []
  simpa [exporter.extractTags, List.enum, labelTag] using h

/-- The points loop, when no call fails: one call per point, in order. -/
theorem exporter_points_ok (sink : Sink) (f : SinkOp) (name : String) (kind : NumberKind)
    (tags : List String) (numbers : List Number) :
    ∀ calls : List SinkCall,
      (∀ p c q, numbers.map (fun n => (⟨f, name, .float64 (metricValue kind n), tags, rate⟩ : SinkCall))
          = p ++ c :: q → sink (calls ++ p) c = none) →
      exporter.Export.points sink f name kind tags numbers calls
        = (calls ++ numbers.map
            (fun n => (⟨f, name, .float64 (metricValue kind n), tags, rate⟩ : SinkCall)), none) := by
  induction numbers with
  | nil => intro calls _; simp [exporter.Export.points]
  | cons n ns ih =>
    intro calls hsend
    have h0 := hsend [] _ _ rfl
    simp only [List.append_nil] at h0
    simp only [exporter.Export.points, clientCall, h0]
    rw [ih]
    · simp
    · intro p c q hpcq
      have := hsend (⟨f, name, .float64 (metricValue kind n), tags, rate⟩ :: p) c q
        (by simp [hpcq])
      simpa using this

/-- Exporting one more record after records that raised no error. -/
theorem exporter_Export_snoc (e : exporter.Exporter) (sink : Sink) (pre : List Record)
    (r : Record) (hpre : (exporter.Export e sink pre).err = none) :
    exporter.Export e sink (pre ++ [r])
      = ⟨(exporter.Export.record e sink r (exporter.Export e sink pre).calls).1,
         (exporter.Export.record e sink r (exporter.Export e sink pre).calls).2⟩ := by
  have hall : ForEach (exporter.Export.record e sink) (pre ++ [r]) []
      = exporter.Export.record e sink r (exporter.Export e sink pre).calls := by
    rw [ForEach_append_of_ok _ _ _ _ hpre, ForEach_singleton]
    rfl
  simp only [exporter.Export, hall]

/-- Claim C4, as amended.  In `src/exporter/datadog.go`, for a record `r` whose aggregator
satisfies `Points` and retains the points `numbers`, reached by the iteration, that is,
exported after records `pre` whose export raised no error, when the sends of the record
succeed: `Export` makes for `r` exactly one call per point, in order, each a histogram call
when `UseDistribution` is false and a distribution call when it is true, under the
descriptor's name as it is, with the tags of all labels of the record and sample rate 1, and
returns no error.  Nothing is assumed on the other capabilities of the aggregator. -/
theorem C4_points_record_calls (e : exporter.Exporter) (sink : Sink) (pre : List Record)
    (r : Record) (numbers : List Number)
    (hpre : (exporter.Export e sink pre).err = none)
    (hpoints : r.aggregator.Points = some (.ok numbers))
    (hsend : ∀ p c q,
      numbers.map (fun n => (⟨if e.cfg.UseDistribution then .Distribution else .Histogram,
          r.descriptor.Name, .float64 (metricValue r.descriptor.NumberKind n),
          r.labels.map labelTag, 1⟩ : SinkCall)) = p ++ c :: q →
      sink ((exporter.Export e sink pre).calls ++ p) c = none) :
    (exporter.Export e sink (pre ++ [r])).calls
        = (exporter.Export e sink pre).calls
          ++ numbers.map (fun n => (⟨if e.cfg.UseDistribution then .Distribution else .Histogram,
              r.descriptor.Name, .float64 (metricValue r.descriptor.NumberKind n),
              r.labels.map labelTag, 1⟩ : SinkCall))
    ∧ (exporter.Export e sink (pre ++ [r])).err = none
    ∧ ((exporter.Export e sink (pre ++ [r])).calls.drop (exporter.Export e sink pre).calls.length).length
        = numbers.length := by
  have hrec : exporter.Export.record e sink r (exporter.Export e sink pre).calls
      = ((exporter.Export e sink pre).calls
          ++ numbers.map (fun n => (⟨if e.cfg.UseDistribution then .Distribution else .Histogram,
              r.descriptor.Name, .float64 (metricValue r.descriptor.NumberKind n),
              r.labels.map labelTag, 1⟩ : SinkCall)), none) := by
    simp only [exporter.Export.record, hpoints, extractTags_eq_map]
    exact exporter_points_ok sink _ _ _ _ numbers _ hsend
  rw [exporter_Export_snoc e sink pre r hpre, hrec]
  simp

/-- The `MinMaxSumCount` case of `src/exporter/datadog.go` when reads and sends succeed. -/
theorem exporter_minMaxSumCount_record (e : exporter.Exporter) (sink : Sink)
    (before : List SinkCall) (r : Record) (m : MinMaxSumCount) (vmin vmax vmed vp95 : Number)
    (hpoints : r.aggregator.Points = none)
    (hmmsc : r.aggregator.MinMaxSumCount = some m)
    (hmin : m.Min = .ok vmin) (hmax : m.Max = .ok vmax)
    (hdist : ∀ d, r.aggregator.Distribution = some d →
      d.Quantile quantileMedian = .ok vmed ∧ d.Quantile quantileP95 = .ok vp95)
    (hsend : ∀ p c q,
      minMaxGauges r.descriptor.Name r.descriptor.NumberKind (r.labels.map labelTag) vmin vmax
        ++ (if r.aggregator.Distribution.isSome then
              quantileGauges r.descriptor.Name r.descriptor.NumberKind (r.labels.map labelTag)
                vmed vp95
            else []) = p ++ c :: q →
      sink (before ++ p) c = none) :
    exporter.Export.record e sink r before
      = (before
          ++ (minMaxGauges r.descriptor.Name r.descriptor.NumberKind (r.labels.map labelTag)
                vmin vmax
              ++ (if r.aggregator.Distribution.isSome then
                    quantileGauges r.descriptor.Name r.descriptor.NumberKind
                      (r.labels.map labelTag) vmed vp95
                  else [])), none) := by
  rcases hd : r.aggregator.Distribution with _ | d
  · rw [hd] at hsend
    simp only [Option.isSome_none, Bool.false_eq_true, if_false, List.append_nil] at hsend ⊢
    have h0 := hsend [] _ _ rfl
    have h1 := hsend [_] _ _ rfl
    simp only [List.append_nil] at h0
    simp only [exporter.Export.record, hpoints, hmmsc, hd, hmin, hmax, extractTags_eq_map,
      exporter.Export.gauges, clientCall, rate, minMaxGauges, gaugeCall] at h0 h1 ⊢
    simp [h0, h1]
  · rw [hd] at hsend
    obtain ⟨hmed, hp95⟩ := hdist d hd
    simp only [Option.isSome_some, if_true] at hsend ⊢
    have h0 := hsend [] _ _ rfl
    have h1 := hsend [_] _ _ rfl
    have h2 := hsend [_, _] _ _ rfl
    have h3 := hsend [_, _, _] _ _ rfl
    simp only [List.append_nil] at h0
    simp only [exporter.Export.record, hpoints, hmmsc, hd, hmin, hmax, hmed, hp95,
      extractTags_eq_map, exporter.Export.gauges, clientCall, rate, minMaxGauges, quantileGauges,
      gaugeCall, List.cons_append, List.nil_append] at h0 h1 h2 h3 ⊢
    simp [h0, h1, h2, h3]

/-! ## Send failures in `src/exporter/datadog.go` -/

/-- In a run, a call that fails is the last call, and its error is the result. -/
theorem Run_split {sink : Sink} {before new : List SinkCall} {res : Option GoError}
    (h : Run sink before new res) :
    ∀ (p : List SinkCall) (c : SinkCall) (q : List SinkCall) (err : GoError),
      new = p ++ c :: q → sink (before ++ p) c = some err → q = [] ∧ res = some err := by
  induction h with
  | done before res => intro p c q err hnew; simp at hnew
  | fail before c0 err0 hfail =>
    intro p c q err hnew hsink
    cases p with
    | nil =>
      simp only [List.nil_append, List.cons.injEq] at hnew
      obtain ⟨hc, hq⟩ := hnew
      subst hc
      simp only [List.append_nil] at hsink
      rw [hfail] at hsink
      exact ⟨hq.symm, hsink⟩
    | cons x xs => simp at hnew
  | step before c0 new0 res hok _ ih =>
    intro p c q err hnew hsink
    cases p with
    | nil =>
      simp only [List.nil_append, List.cons.injEq] at hnew
      obtain ⟨hc, -⟩ := hnew
      subst hc
      simp only [List.append_nil] at hsink
      rw [hok] at hsink
      cases hsink
    | cons x xs =>
      simp only [List.cons_append, List.cons.injEq] at hnew
      obtain ⟨hx, hnew⟩ := hnew
      subst hx
      exact ih xs c q err hnew (by simpa using hsink)

/-- A run that ended without error can be continued. -/
theorem Run_append {sink : Sink} {before new1 : List SinkCall} {res1 : Option GoError}
    (h1 : Run sink before new1 res1) :
    ∀ (new2 : List SinkCall) (res : Option GoError), res1 = none →
      Run sink (before ++ new1) new2 res → Run sink before (new1 ++ new2) res := by
  induction h1 with
  | done before res1 => intro new2 res _ h2; simpa using h2
  | fail before c err hfail => intro new2 res hnone; cases hnone
  | step before c new res1 hok _ ih =>
    intro new2 res hnone h2
    exact Run.step before c (new ++ new2) res hok (ih new2 res hnone (by simpa using h2))

/-- One client call is a run. -/
theorem clientCall_run (sink : Sink) (c : SinkCall) (before : List SinkCall) :
    ∃ new, (clientCall sink c before).1 = before ++ new
      ∧ Run sink before new (clientCall sink c before).2 := by
  refine ⟨[c], rfl, ?_⟩
  simp only [clientCall]
  rcases hs : sink before c with _ | err
  · exact Run.step before c [] none hs (Run.done _ _)
  · exact Run.fail before c err hs

/-- The points loop is a run. -/
theorem exporter_points_run (sink : Sink) (f : SinkOp) (name : String) (kind : NumberKind)
    (tags : List String) (numbers : List Number) :
    ∀ before : List SinkCall,
      ∃ new, (exporter.Export.points sink f name kind tags numbers before).1 = before ++ new
        ∧ Run sink before new (exporter.Export.points sink f name kind tags numbers before).2 := by
  induction numbers with
  | nil => intro before; exact ⟨[], by simp [exporter.Export.points], Run.done _ _⟩
  | cons n ns ih =>
    intro before
    simp only [exporter.Export.points, clientCall]
    rcases hs : sink before ⟨f, name, .float64 (metricValue kind n), tags, rate⟩ with _ | err
    · obtain ⟨new, hnew, hrun⟩ := ih (before ++ [⟨f, name, .float64 (metricValue kind n), tags, rate⟩])
      refine ⟨⟨f, name, .float64 (metricValue kind n), tags, rate⟩ :: new, ?_, ?_⟩
      · simpa using hnew
      · exact Run.step before _ new _ hs hrun
    · exact ⟨[⟨f, name, .float64 (metricValue kind n), tags, rate⟩], rfl, Run.fail before _ err hs⟩

/-- The gauges loop of `src/exporter/datadog.go` is a run. -/
theorem exporter_gauges_run (sink : Sink) (name : String) (kind : NumberKind)
    (tags : List String) (recs : List GaugeRec) :
    ∀ before : List SinkCall,
      ∃ new, (exporter.Export.gauges sink name kind tags recs before).1 = before ++ new
        ∧ Run sink before new (exporter.Export.gauges sink name kind tags recs before).2 := by
  induction recs with
  | nil => intro before; exact ⟨[], by simp [exporter.Export.gauges], Run.done _ _⟩
  | cons rec recs ih =>
    intro before
    simp only [exporter.Export.gauges, clientCall]
    rcases hf : rec.f () with err | val
    · exact ⟨[], by simp, Run.done _ _⟩
    · simp only
      rcases hs : sink before ⟨.Gauge, rec.name, .float64 (metricValue kind val), tags, rate⟩
        with _ | err
      · obtain ⟨new, hnew, hrun⟩ :=
          ih (before ++ [⟨.Gauge, rec.name, .float64 (metricValue kind val), tags, rate⟩])
        refine ⟨⟨.Gauge, rec.name, .float64 (metricValue kind val), tags, rate⟩ :: new, ?_, ?_⟩
        · simpa using hnew
        · exact Run.step before _ new _ hs hrun
      · exact ⟨[⟨.Gauge, rec.name, .float64 (metricValue kind val), tags, rate⟩], rfl,
          Run.fail before _ err hs⟩

/-- The export of one record by `src/exporter/datadog.go` is a run. -/
theorem exporter_record_run (e : exporter.Exporter) (sink : Sink) (r : Record)
    (before : List SinkCall) :
    ∃ new, (exporter.Export.record e sink r before).1 = before ++ new
      ∧ Run sink before new (exporter.Export.record e sink r before).2 := by
  rcases hP : r.aggregator.Points with _ | (err | numbers)
  · rcases hM : r.aggregator.MinMaxSumCount with _ | m
    · rcases hS : r.aggregator.Sum with _ | (err | val)
      · rcases hL : r.aggregator.LastValue with _ | (err | ⟨val, t⟩)
        · simp only [exporter.Export.record, hP, hM, hS, hL]
          exact ⟨[], by simp, Run.done _ _⟩
        · simp only [exporter.Export.record, hP, hM, hS, hL]
          exact ⟨[], by simp, Run.done _ _⟩
        · simp only [exporter.Export.record, hP, hM, hS, hL]
          exact clientCall_run sink _ before
      · simp only [exporter.Export.record, hP, hM, hS]
        exact ⟨[], by simp, Run.done _ _⟩
      · simp only [exporter.Export.record, hP, hM, hS]
        exact clientCall_run sink _ before
    · simp only [exporter.Export.record, hP, hM]
      exact exporter_gauges_run sink _ _ _ _ before
  · simp only [exporter.Export.record, hP]
    exact ⟨[], by simp, Run.done _ _⟩
  · simp only [exporter.Export.record, hP]
    exact exporter_points_run sink _ _ _ _ numbers before

/-- The iteration over the records of a checkpoint is a run when the export of each record
is one. -/
theorem ForEach_run (sink : Sink) (f : Record → List SinkCall → List SinkCall × Option GoError)
    (hf : ∀ r before, ∃ new, (f r before).1 = before ++ new ∧ Run sink before new (f r before).2)
    (cs : List Record) :
    ∀ before : List SinkCall,
      ∃ new, (ForEach f cs before).1 = before ++ new ∧ Run sink before new (ForEach f cs before).2 := by
  induction cs with
  | nil => intro before; exact ⟨[], by simp [ForEach], Run.done _ _⟩
  | cons r rest ih =>
    intro before
    obtain ⟨new1, hnew1, hrun1⟩ := hf r before
    simp only [ForEach]
    rcases hfr : f r before with ⟨st1, _ | err⟩
    · rw [hfr] at hnew1 hrun1
      simp only at hnew1 hrun1 ⊢
      subst hnew1
      obtain ⟨new2, hnew2, hrun2⟩ := ih (before ++ new1)
      refine ⟨new1 ++ new2, ?_, ?_⟩
      · rw [hnew2, List.append_assoc]
      · exact Run_append hrun1 new2 _ rfl hrun2
    · rw [hfr] at hnew1 hrun1
      exact ⟨new1, hnew1, hrun1⟩

/-- In `src/exporter/datadog.go`, a client call that fails is the last call `Export` makes,
and `Export` returns its error. -/
theorem exporter_Export_send_failure (e : exporter.Exporter) (sink : Sink) (cs : List Record)
    (made : List SinkCall) (c : SinkCall) (later : List SinkCall) (err : GoError)
    (hcalls : (exporter.Export e sink cs).calls = made ++ c :: later)
    (hfail : sink made c = some err) :
    later = [] ∧ (exporter.Export e sink cs).err = some err := by
  obtain ⟨new, hnew, hrun⟩ :=
    ForEach_run sink (exporter.Export.record e sink) (exporter_record_run e sink) cs []
  simp only [List.nil_append] at hnew
  have hcalls2 : new = made ++ c :: later := by rw [← hnew]; exact hcalls
  exact Run_split hrun made c later err hcalls2 (by simpa using hfail)

/-! ## Read failures in `src/exporter/datadog.go` -/

/-- The message of a wrapped error contains the metric name. -/
theorem Errorf_msg_contains_name (pre name : String) (cause : GoError) :
    name.data <:+: (Errorf pre name cause).msg.data := by
  refine ⟨pre.data, (": " ++ cause.msg).data, ?_⟩
  simp [Errorf, String.data_append]

/-- In `src/exporter/datadog.go`, a record whose `Sum()` read fails, reached without error:
`Export` returns the wrapped error and has made the calls of the records before it only. -/
theorem exporter_Export_sum_read_failure (e : exporter.Exporter) (sink : Sink)
    (pre : List Record) (r : Record) (post : List Record) (cause : GoError)
    (hpre : (exporter.Export e sink pre).err = none)
    (hpoints : r.aggregator.Points = none)
    (hmmsc : r.aggregator.MinMaxSumCount = none)
    (hsum : r.aggregator.Sum = some (.error cause)) :
    exporter.Export e sink (pre ++ r :: post)
      = ⟨(exporter.Export e sink pre).calls,
         some (Errorf "error getting Sum value for " r.descriptor.Name cause)⟩ := by
  have hrec : ∀ before, exporter.Export.record e sink r before
      = (before, some (Errorf "error getting Sum value for " r.descriptor.Name cause)) := by
    intro before
    simp only [exporter.Export.record, hpoints, hmmsc, hsum]
  have hall : ForEach (exporter.Export.record e sink) (pre ++ r :: post) []
      = ((exporter.Export e sink pre).calls,
          some (Errorf "error getting Sum value for " r.descriptor.Name cause)) := by
    rw [ForEach_append_of_ok _ _ _ _ hpre]
    simp only [ForEach, hrec]
    rfl
  simp only [exporter.Export, hall]

/-! ## Numeric normalisation -/

/-- The quantile arguments are the binary64 numbers they stand for: `0.5` is `2 ^ (-1)`
exactly, and the fraction of `quantileP95` is within half a unit in the last place of
`95/100` (the distance, scaled by `100 * 2 ^ 53`, is at most `50`). -/
theorem quantile_constants :
    quantileMedian.bits = 1022 * 2 ^ 52
    ∧ quantileP95.bits = 1022 * 2 ^ 52 + 0xE666666666666
    ∧ 100 * (2 ^ 52 + 0xE666666666666) - 95 * 2 ^ 53 ≤ 50
    ∧ 95 * 2 ^ 53 - 100 * (2 ^ 52 + 0xE666666666666) ≤ 50 := by
  decide

/-- The highest set bit of `m` brackets `m` between two powers of two. -/
theorem highBit_lt (fuel : Nat) : ∀ m, 0 < m → m < 2 ^ fuel →
    2 ^ highBit fuel m ≤ m ∧ m < 2 ^ (highBit fuel m + 1) ∧ highBit fuel m < fuel := by
  induction fuel with
  | zero => intro m h0 h1; simp at h1; omega
  | succ fuel ih =>
    intro m h0 h1
    by_cases h2 : m < 2
    · have : m = 1 := by omega
      subst this
      simp [highBit]
    · have hm : 0 < m / 2 := Nat.div_pos (by omega) (by decide)
      have hlt : m / 2 < 2 ^ fuel := by
        rw [Nat.div_lt_iff_lt_mul (by decide)]
        rw [pow_succ] at h1
        exact h1
      obtain ⟨h3, h4, h5⟩ := ih (m / 2) hm hlt
      simp only [highBit, h2, if_false]
      refine ⟨?_, ?_, by omega⟩
      · rw [pow_succ]
        have := Nat.div_mul_le_self m 2
        calc 2 ^ highBit fuel (m / 2) * 2 ≤ m / 2 * 2 := Nat.mul_le_mul_right 2 h3
          _ ≤ m := this
      · rw [pow_succ]
        have : m < (m / 2 + 1) * 2 := by omega
        calc m < (m / 2 + 1) * 2 := this
          _ ≤ 2 ^ (highBit fuel (m / 2) + 1) * 2 := Nat.mul_le_mul_right 2 h4

/-- The conversion of a `uint64` to `float64` never sets the sign bit. -/
theorem Float64_ofUint64_bits_lt (u : Nat) : (Float64.ofUint64 u).bits < 2 ^ 63 := by
  unfold Float64.ofUint64
  simp only
  by_cases hm : u % 2 ^ 64 = 0
  · rw [if_pos hm]
    show (0 : Nat) < 2 ^ 63
    positivity
  · have hpos : 0 < u % 2 ^ 64 := Nat.pos_of_ne_zero hm
    have hlt : u % 2 ^ 64 < 2 ^ 64 := Nat.mod_lt _ (by positivity)
    obtain ⟨h1, h2, h3⟩ := highBit_lt 64 (u % 2 ^ 64) hpos hlt
    generalize highBit 64 (u % 2 ^ 64) = b at h1 h2 h3
    generalize u % 2 ^ 64 = m at hm hpos hlt h1 h2
    simp only [hm, if_false]
    by_cases hb : b ≤ 52
    · simp only [hb, if_true]
      have hmul : m * 2 ^ (52 - b) < 2 ^ 53 := by
        calc m * 2 ^ (52 - b) < 2 ^ (b + 1) * 2 ^ (52 - b) :=
              Nat.mul_lt_mul_of_pos_right h2 (by positivity)
          _ = 2 ^ 53 := by rw [← pow_add]; congr 1; omega
      have hb2 : (b + 1023) * 2 ^ 52 ≤ 1075 * 2 ^ 52 := Nat.mul_le_mul_right _ (by omega)
      omega
    · simp only [hb, if_false]
      have hq : m / 2 ^ (b - 52) < 2 ^ 53 := by
        rw [Nat.div_lt_iff_lt_mul (by positivity)]
        calc m < 2 ^ (b + 1) := h2
          _ = 2 ^ 53 * 2 ^ (b - 52) := by rw [← pow_add]; congr 1; omega
      have hb2 : (b + 1023) * 2 ^ 52 ≤ 1086 * 2 ^ 52 := Nat.mul_le_mul_right _ (by omega)
      split <;> omega

/-! ## Slices: what `append` writes -/

/-- Allocating the empty literal changes no slice. -/
theorem load_emptySliceLit (h : Heap) (s : Slice) : (emptySliceLit h).1.load s = h.load s := by
  have hget : (h.arrays ++ [[]]).getD s.array [] = h.arrays.getD s.array [] := by
    rw [List.getD_eq_getElem?_getD, List.getD_eq_getElem?_getD, List.getElem?_append]
    split
    · rfl
    · rename_i hlt
      rw [List.getElem?_eq_none (Nat.le_of_not_lt hlt)]
      rcases hi : s.array - h.arrays.length with _ | k
      · simp
      · simp
  simp only [emptySliceLit, Heap.load, hget]

/-- The empty literal is a slice of its own, without elements. -/
theorem builtAfter_emptySliceLit (h : Heap) :
    BuiltAfter h (emptySliceLit h).1 (emptySliceLit h).2
      ∧ (emptySliceLit h).1.load (emptySliceLit h).2 = [] := by
  refine ⟨⟨⟨[[]], rfl⟩, ?_, ?_, rfl, ?_, ?_⟩, ?_⟩
  · simp [emptySliceLit]
  · simp [emptySliceLit]
  · simp [emptySliceLit]
  · simp [emptySliceLit]
  · simp [emptySliceLit, Heap.load]

/-- The elements of a slice built by `append` number its length. -/
theorem load_length_of_builtAfter {h0 h : Heap} {s : Slice} (hb : BuiltAfter h0 h s) :
    (h.load s).length = s.len := by
  obtain ⟨-, -, -, hoff, hlen, hcap⟩ := hb
  simp only [Heap.load, hoff, List.drop_zero, List.length_take]
  omega

/-- The built-in `append` on a slice built after `h0`: the result holds the old elements and
then the new ones, and is again built after `h0`. -/
theorem goAppend_builtAfter (grow : Nat → Nat → Nat) {h0 h : Heap} {s : Slice}
    (hb : BuiltAfter h0 h s) (xs : List String) :
    BuiltAfter h0 (goAppend grow h s xs).1 (goAppend grow h s xs).2
      ∧ (goAppend grow h s xs).1.load (goAppend grow h s xs).2 = h.load s ++ xs := by
  have hload := load_length_of_builtAfter hb
  obtain ⟨⟨t, ht⟩, hge, hlt, hoff, hlen, hcap⟩ := hb
  by_cases hfit : s.len + xs.length ≤ s.cap
  · -- in place
    have hget : ∀ x : List String, (h.arrays.set s.array x).getD s.array [] = x := by
      intro x
      rw [List.getD_eq_getElem?_getD, List.getElem?_set_self hlt]
      rfl
    have htake : ((h.arrays.getD s.array []).take s.len).length = s.len := by
      rw [List.length_take]; omega
    simp only [goAppend, hfit, if_true, hoff, Nat.zero_add]
    refine ⟨⟨⟨t.set (s.array - h0.arrays.length)
        ((h.arrays.getD s.array []).take s.len ++ xs
          ++ (h.arrays.getD s.array []).drop (s.len + xs.length)), ?_⟩,
      hge, ?_, rfl, hfit, ?_⟩, ?_⟩
    · simp only [ht]
      exact List.set_append_right _ _ hge
    · simpa using hlt
    · simp only [hget, List.length_append, htake, List.length_drop]
      omega
    · simp only [Heap.load, hget, hoff, List.drop_zero]
      rw [List.append_assoc, List.take_append_eq_append_take, htake]
      rw [List.take_of_length_le (by rw [htake]; omega)]
      simp
  · -- a new array
    simp only [goAppend, hfit, if_false]
    have hget : ∀ x : List String, (h.arrays ++ [x]).getD h.arrays.length [] = x := by
      intro x
      rw [List.getD_eq_getElem?_getD, List.getElem?_concat_length]
      rfl
    refine ⟨⟨⟨t ++ [h.load s ++ xs
        ++ List.replicate (max (s.len + xs.length) (grow s.cap (s.len + xs.length))
            - (s.len + xs.length)) ""], ?_⟩, ?_, ?_, rfl, ?_, ?_⟩, ?_⟩
    · simp only [ht, List.append_assoc]
    · simp only [ht, List.length_append]; omega
    · simp
    · exact Nat.le_max_left _ _
    · simp only [hget, List.length_append, hload, List.length_replicate]
      have := Nat.le_max_left (s.len + xs.length) (grow s.cap (s.len + xs.length))
      omega
    · have hl : (h.load s ++ xs).length = s.len + xs.length := by
        rw [List.length_append, hload]
      have hunfold : ∀ (arrays : List (List String)) (sl : Slice),
          (Heap.mk arrays).load sl = ((arrays.getD sl.array []).drop sl.off).take sl.len :=
        fun _ _ => rfl
      rw [hunfold, hget]
      simp only [List.drop_zero]
      rw [List.take_left' hl]

/-- The tag slice of a record holds the configured global tags, then the tags of the
record's labels in iteration order, and is built after the heap the record started on. -/
theorem datadog_Export_tags (grow : Nat → Nat → Nat) (e : datadog.exporter) (r : Record)
    (h : Heap) :
    BuiltAfter h (datadog.Export.tags grow e r h).1 (datadog.Export.tags grow e r h).2
      ∧ (datadog.Export.tags grow e r h).1.load (datadog.Export.tags grow e r h).2
          = h.load e.opts.Tags ++ r.labels.map labelTag := by
  have hfold : ∀ (ls : List Label) (st : Heap × Slice), BuiltAfter h st.1 st.2 →
      BuiltAfter h
          (ls.foldl (fun st label => goAppend grow st.1 st.2 [label.Key ++ ":" ++ label.Value.Emit]) st).1
          (ls.foldl (fun st label => goAppend grow st.1 st.2 [label.Key ++ ":" ++ label.Value.Emit]) st).2
        ∧ (ls.foldl (fun st label => goAppend grow st.1 st.2 [label.Key ++ ":" ++ label.Value.Emit]) st).1.load
            (ls.foldl (fun st label => goAppend grow st.1 st.2 [label.Key ++ ":" ++ label.Value.Emit]) st).2
          = st.1.load st.2 ++ ls.map labelTag := by
    intro ls
    induction ls with
    | nil => intro st hst; exact ⟨hst, by simp⟩
    | cons l ls ih =>
      intro st hst
      obtain ⟨hb1, hl1⟩ := goAppend_builtAfter grow hst [l.Key ++ ":" ++ l.Value.Emit]
      obtain ⟨hb2, hl2⟩ := ih _ hb1
      simp only [List.foldl_cons]
      refine ⟨hb2, ?_⟩
      rw [hl2, hl1]
      simp [labelTag]
  obtain ⟨hb0, hl0⟩ := builtAfter_emptySliceLit h
  obtain ⟨hb1, hl1⟩ := goAppend_builtAfter grow hb0 ((emptySliceLit h).1.load e.opts.Tags)
  obtain ⟨hb2, hl2⟩ := hfold r.labels _ hb1
  refine ⟨hb2, ?_⟩
  simp only [datadog.Export.tags]
  rw [hl2, hl1, hl0, load_emptySliceLit]
  simp

/-- A slice allocated in `h0` reads the same in every heap that extends `h0`. -/
theorem load_of_extends {h0 h : Heap} (s : Slice) (hs : h0.Allocated s)
    (hext : ∃ t, h.arrays = h0.arrays ++ t) : h.load s = h0.load s ∧ h.Allocated s := by
  obtain ⟨t, ht⟩ := hext
  rcases hs with hzero | hlt
  · exact ⟨by simp [Heap.load, hzero], Or.inl hzero⟩
  · refine ⟨?_, Or.inr (by rw [ht, List.length_append]; omega)⟩
    simp only [Heap.load, ht, List.getD_append _ _ _ _ hlt]

/-! ## The calls of `src/datadog.go` -/

/-- The gauges loop of `src/datadog.go`: every call is a gauge call for one of the
sub-metrics, with the given tags and sample rate 1.  The sink has no influence. -/
theorem datadog_gauges_calls (sink : Sink) (kind : NumberKind) (tags : List String)
    (recs : List GaugeRec) :
    ∀ before : List SinkCall,
      ∃ new, (datadog.Export.gauges sink kind tags recs before).1 = before ++ new
        ∧ ∀ c ∈ new, c.op = .Gauge ∧ c.tags = tags ∧ c.rate = 1 ∧ ∃ rec ∈ recs, c.name = rec.name := by
  induction recs with
  | nil => intro before; exact ⟨[], by simp [datadog.Export.gauges], by simp⟩
  | cons rec recs ih =>
    intro before
    simp only [datadog.Export.gauges, clientCall]
    rcases hf : rec.f () with err | val
    · exact ⟨[], by simp, by simp⟩
    · obtain ⟨new, hnew, hall⟩ :=
        ih (before ++ [⟨.Gauge, rec.name, .float64 (metricValue kind val), tags, rate⟩])
      refine ⟨⟨.Gauge, rec.name, .float64 (metricValue kind val), tags, rate⟩ :: new, ?_, ?_⟩
      · simpa using hnew
      · intro c hc
        rcases List.mem_cons.1 hc with rfl | hc
        · exact ⟨rfl, rfl, rfl, rec, List.mem_cons_self _ _, rfl⟩
        · obtain ⟨h1, h2, h3, rec2, hrec2, h4⟩ := hall c hc
          exact ⟨h1, h2, h3, rec2, List.mem_cons_of_mem _ hrec2, h4⟩

/-- The export of one record by `src/datadog.go`: the heap is the one the tag slice was built
in, and every call added is a gauge call with sample rate 1, the global tags followed by the
tags of the labels, and the sanitised name followed by a sub-metric suffix. -/
theorem datadog_record_calls (grow : Nat → Nat → Nat) (e : datadog.exporter) (sink : Sink)
    (r : Record) (st : Heap × List SinkCall) :
    (datadog.Export.record grow e sink r st).1.1 = (datadog.Export.tags grow e r st.1).1
    ∧ ∃ new, (datadog.Export.record grow e sink r st).1.2 = st.2 ++ new
      ∧ ∀ c ∈ new, c.op = .Gauge
          ∧ c.tags = st.1.load e.opts.Tags ++ r.labels.map labelTag
          ∧ c.rate = 1
          ∧ ∃ suffix ∈ [".min", ".max", ".median", ".p95", ".count"],
              c.name = datadog.sanitizeMetricName e.opts.Namespace r.descriptor.Name ++ suffix := by
  have htags := (datadog_Export_tags grow e r st.1).2
  rcases hM : r.aggregator.MinMaxSumCount with _ | m
  · rcases hS : r.aggregator.Sum with _ | (err | val)
    · rcases hL : r.aggregator.LastValue with _ | (err | ⟨val, t⟩)
      · simp only [datadog.Export.record, hM, hS, hL]
        exact ⟨trivial, [], by simp, by simp⟩
      · simp only [datadog.Export.record, hM, hS, hL]
        exact ⟨trivial, [], by simp, by simp⟩
      · simp only [datadog.Export.record, hM, hS, hL, clientCall]
        refine ⟨trivial, [_], rfl, ?_⟩
        intro c hc
        rw [List.mem_singleton] at hc
        subst hc
        exact ⟨rfl, htags, rfl, ".count", by simp, rfl⟩
    · simp only [datadog.Export.record, hM, hS]
      exact ⟨trivial, [], by simp, by simp⟩
    · simp only [datadog.Export.record, hM, hS, clientCall]
      refine ⟨trivial, [_], rfl, ?_⟩
      intro c hc
      rw [List.mem_singleton] at hc
      subst hc
      exact ⟨rfl, htags, rfl, ".count", by simp, rfl⟩
  · simp only [datadog.Export.record, hM]
    refine ⟨trivial, ?_⟩
    obtain ⟨new, hnew, hall⟩ := datadog_gauges_calls sink r.descriptor.NumberKind
      ((datadog.Export.tags grow e r st.1).1.load (datadog.Export.tags grow e r st.1).2)
      (match r.aggregator.Distribution with
        | some dist =>
          [⟨datadog.sanitizeMetricName e.opts.Namespace r.descriptor.Name ++ ".min", fun _ => m.Min⟩,
           ⟨datadog.sanitizeMetricName e.opts.Namespace r.descriptor.Name ++ ".max", fun _ => m.Max⟩]
          ++ [⟨datadog.sanitizeMetricName e.opts.Namespace r.descriptor.Name ++ ".median",
                fun _ => dist.Quantile quantileMedian⟩,
              ⟨datadog.sanitizeMetricName e.opts.Namespace r.descriptor.Name ++ ".p95",
                fun _ => dist.Quantile quantileP95⟩]
        | none =>
          [⟨datadog.sanitizeMetricName e.opts.Namespace r.descriptor.Name ++ ".min", fun _ => m.Min⟩,
           ⟨datadog.sanitizeMetricName e.opts.Namespace r.descriptor.Name ++ ".max", fun _ => m.Max⟩])
      st.2
    refine ⟨new, hnew, ?_⟩
    intro c hc
    obtain ⟨h1, h2, h3, rec, hrec, h4⟩ := hall c hc
    refine ⟨h1, h2.trans htags, h3, ?_⟩
    rcases hD : r.aggregator.Distribution with _ | d
    · rw [hD] at hrec
      simp only [List.mem_cons, List.mem_singleton, List.not_mem_nil, or_false] at hrec
      rcases hrec with rfl | rfl
      · exact ⟨".min", by simp, h4⟩
      · exact ⟨".max", by simp, h4⟩
    · rw [hD] at hrec
      simp only [List.cons_append, List.nil_append, List.mem_cons, List.mem_singleton,
        List.not_mem_nil, or_false] at hrec
      rcases hrec with rfl | rfl | rfl | rfl
      · exact ⟨".min", by simp, h4⟩
      · exact ⟨".max", by simp, h4⟩
      · exact ⟨".median", by simp, h4⟩
      · exact ⟨".p95", by simp, h4⟩

/-- The heap after the export of a record extends the heap before it. -/
theorem datadog_record_heap_extends (grow : Nat → Nat → Nat) (e : datadog.exporter)
    (sink : Sink) (r : Record) (st : Heap × List SinkCall) :
    ∃ t, (datadog.Export.record grow e sink r st).1.1.arrays = st.1.arrays ++ t := by
  rw [(datadog_record_calls grow e sink r st).1]
  exact (datadog_Export_tags grow e r st.1).1.1

/-- Extending a heap is transitive. -/
theorem extends_trans {h0 h1 h2 : Heap} (h01 : ∃ t, h1.arrays = h0.arrays ++ t)
    (h12 : ∃ t, h2.arrays = h1.arrays ++ t) : ∃ t, h2.arrays = h0.arrays ++ t := by
  obtain ⟨t1, ht1⟩ := h01
  obtain ⟨t2, ht2⟩ := h12
  exact ⟨t1 ++ t2, by rw [ht2, ht1, List.append_assoc]⟩

/-- The iteration of `src/datadog.go` over a checkpoint, started in a heap that extends
`h0`: the heap only grows, and every call is a gauge call for a record of the checkpoint, with
its sanitised name and a sub-metric suffix, the global tags (when they are allocated in `h0`)
followed by the tags of its labels, and sample rate 1. -/
theorem datadog_ForEach_calls (grow : Nat → Nat → Nat) (e : datadog.exporter) (sink : Sink)
    (h0 : Heap) (cs : List Record) :
    ∀ st : Heap × List SinkCall, (∃ t, st.1.arrays = h0.arrays ++ t) →
      (∃ t, (ForEach (datadog.Export.record grow e sink) cs st).1.1.arrays = h0.arrays ++ t)
      ∧ ∃ new, (ForEach (datadog.Export.record grow e sink) cs st).1.2 = st.2 ++ new
        ∧ ∀ c ∈ new, ∃ r ∈ cs, c.op = .Gauge
            ∧ (h0.Allocated e.opts.Tags →
                c.tags = h0.load e.opts.Tags ++ r.labels.map labelTag)
            ∧ c.rate = 1
            ∧ ∃ suffix ∈ [".min", ".max", ".median", ".p95", ".count"],
                c.name = datadog.sanitizeMetricName e.opts.Namespace r.descriptor.Name ++ suffix := by
  induction cs with
  | nil => intro st hst; exact ⟨hst, [], by simp [ForEach], by simp⟩
  | cons r rest ih =>
    intro st hst
    have hext := extends_trans hst (datadog_record_heap_extends grow e sink r st)
    obtain ⟨-, new1, hnew1, hall1⟩ := datadog_record_calls grow e sink r st
    have hall1' : ∀ c ∈ new1, ∃ r' ∈ r :: rest, c.op = .Gauge
        ∧ (h0.Allocated e.opts.Tags →
            c.tags = h0.load e.opts.Tags ++ r'.labels.map labelTag)
        ∧ c.rate = 1
        ∧ ∃ suffix ∈ [".min", ".max", ".median", ".p95", ".count"],
            c.name = datadog.sanitizeMetricName e.opts.Namespace r'.descriptor.Name ++ suffix := by
      intro c hc
      obtain ⟨h1, h2, h3, h4⟩ := hall1 c hc
      exact ⟨r, List.mem_cons_self _ _, h1,
        fun hG => by rw [h2, (load_of_extends e.opts.Tags hG hst).1], h3, h4⟩
    simp only [ForEach]
    rcases hfr : datadog.Export.record grow e sink r st with ⟨st1, _ | err⟩
    · rw [hfr] at hext hnew1
      simp only at hext hnew1 ⊢
      obtain ⟨hext2, new2, hnew2, hall2⟩ := ih st1 hext
      refine ⟨hext2, new1 ++ new2, by rw [hnew2, hnew1, List.append_assoc], ?_⟩
      intro c hc
      rcases List.mem_append.1 hc with hc | hc
      · exact hall1' c hc
      · obtain ⟨r', hr', hrest⟩ := hall2 c hc
        exact ⟨r', List.mem_cons_of_mem _ hr', hrest⟩
    · rw [hfr] at hext hnew1
      exact ⟨hext, new1, hnew1, hall1'⟩

/-- The gauges loop of `src/datadog.go` does not depend on the sink. -/
theorem datadog_gauges_sink_irrelevant (sink1 sink2 : Sink) (kind : NumberKind)
    (tags : List String) (recs : List GaugeRec) :
    ∀ before : List SinkCall,
      datadog.Export.gauges sink1 kind tags recs before
        = datadog.Export.gauges sink2 kind tags recs before := by
  induction recs with
  | nil => intro before; rfl
  | cons rec recs ih =>
    intro before
    simp only [datadog.Export.gauges, clientCall]
    rcases rec.f () with err | val
    · rfl
    · exact ih _

/-- In `src/datadog.go` the answer of the sink is dropped: `Export` makes the same calls,
leaves the same heap and returns the same result on every sink. -/
theorem datadog_Export_sink_irrelevant (grow : Nat → Nat → Nat) (e : datadog.exporter)
    (sink1 sink2 : Sink) (h : Heap) (cs : List Record) :
    datadog.Export grow e sink1 h cs = datadog.Export grow e sink2 h cs := by
  have hrec : datadog.Export.record grow e sink1 = datadog.Export.record grow e sink2 := by
    funext r st
    simp only [datadog.Export.record, clientCall,
      datadog_gauges_sink_irrelevant sink1 sink2]
  simp only [datadog.Export, hrec]

/-- Exporting one more record after records that raised no error (`src/datadog.go`). -/
theorem datadog_Export_snoc (grow : Nat → Nat → Nat) (e : datadog.exporter) (sink : Sink)
    (h : Heap) (pre : List Record) (r : Record)
    (hpre : (datadog.Export grow e sink h pre).err = none) :
    datadog.Export grow e sink h (pre ++ [r])
      = ⟨(datadog.Export.record grow e sink r
            ((datadog.Export grow e sink h pre).heap, (datadog.Export grow e sink h pre).calls)).1.1,
         (datadog.Export.record grow e sink r
            ((datadog.Export grow e sink h pre).heap, (datadog.Export grow e sink h pre).calls)).1.2,
         (datadog.Export.record grow e sink r
            ((datadog.Export grow e sink h pre).heap, (datadog.Export grow e sink h pre).calls)).2⟩ := by
  have hall : ForEach (datadog.Export.record grow e sink) (pre ++ [r]) (h, [])
      = datadog.Export.record grow e sink r
          ((datadog.Export grow e sink h pre).heap, (datadog.Export grow e sink h pre).calls) := by
    rw [ForEach_append_of_ok _ _ _ _ hpre, ForEach_singleton]
    rfl
  simp only [datadog.Export, hall]

/-- The heap `Export` of `src/datadog.go` leaves extends the heap it started on. -/
theorem datadog_Export_heap_extends (grow : Nat → Nat → Nat) (e : datadog.exporter)
    (sink : Sink) (h : Heap) (cs : List Record) :
    ∃ t, (datadog.Export grow e sink h cs).heap.arrays = h.arrays ++ t :=
  (datadog_ForEach_calls grow e sink h cs (h, []) ⟨[], by simp⟩).1

/-- The `MinMaxSumCount` case of `src/datadog.go` when the reads succeed. -/
theorem datadog_minMaxSumCount_record (grow : Nat → Nat → Nat) (e : datadog.exporter)
    (sink : Sink) (st : Heap × List SinkCall) (r : Record) (m : MinMaxSumCount)
    (vmin vmax vmed vp95 : Number)
    (hmmsc : r.aggregator.MinMaxSumCount = some m)
    (hmin : m.Min = .ok vmin) (hmax : m.Max = .ok vmax)
    (hdist : ∀ d, r.aggregator.Distribution = some d →
      d.Quantile quantileMedian = .ok vmed ∧ d.Quantile quantileP95 = .ok vp95) :
    (datadog.Export.record grow e sink r st).1.2
      = st.2 ++ (minMaxGauges (datadog.sanitizeMetricName e.opts.Namespace r.descriptor.Name)
                  r.descriptor.NumberKind (st.1.load e.opts.Tags ++ r.labels.map labelTag) vmin vmax
              ++ (if r.aggregator.Distribution.isSome then
                    quantileGauges (datadog.sanitizeMetricName e.opts.Namespace r.descriptor.Name)
                      r.descriptor.NumberKind (st.1.load e.opts.Tags ++ r.labels.map labelTag)
                      vmed vp95
                  else []))
    ∧ (datadog.Export.record grow e sink r st).2 = none := by
  have htags := (datadog_Export_tags grow e r st.1).2
  rcases hd : r.aggregator.Distribution with _ | d
  · simp only [datadog.Export.record, hmmsc, hd, hmin, hmax, datadog.Export.gauges, clientCall,
      htags, rate, minMaxGauges, gaugeCall]
    simp
  · obtain ⟨hmed, hp95⟩ := hdist d hd
    simp only [datadog.Export.record, hmmsc, hd, hmin, hmax, hmed, hp95, datadog.Export.gauges,
      clientCall, htags, rate, minMaxGauges, quantileGauges, gaugeCall, List.cons_append,
      List.nil_append]
    simp

/-- In `src/datadog.go`, a record whose `Sum()` read fails, reached without error: `Export`
returns the error of the read as it is and has made the calls of the records before it
only. -/
theorem datadog_Export_sum_read_failure (grow : Nat → Nat → Nat) (e : datadog.exporter)
    (sink : Sink) (h : Heap) (pre : List Record) (r : Record) (post : List Record)
    (cause : GoError)
    (hpre : (datadog.Export grow e sink h pre).err = none)
    (hmmsc : r.aggregator.MinMaxSumCount = none)
    (hsum : r.aggregator.Sum = some (.error cause)) :
    (datadog.Export grow e sink h (pre ++ r :: post)).calls
        = (datadog.Export grow e sink h pre).calls
    ∧ (datadog.Export grow e sink h (pre ++ r :: post)).err = some cause := by
  have hrec : ∀ st, datadog.Export.record grow e sink r st
      = (((datadog.Export.tags grow e r st.1).1, st.2), some cause) := by
    intro st
    simp only [datadog.Export.record, hmmsc, hsum]
  have hall : ForEach (datadog.Export.record grow e sink) (pre ++ r :: post) (h, [])
      = (((datadog.Export.tags grow e r (datadog.Export grow e sink h pre).heap).1,
          (datadog.Export grow e sink h pre).calls), some cause) := by
    rw [ForEach_append_of_ok _ _ _ _ hpre]
    simp only [ForEach, hrec]
    rfl
  constructor
  · simp only [datadog.Export, hall]
  · simp only [datadog.Export, hall]

/-! ## Metric names -/

/-- The function `sanitizeString` writes characters of `[A-Za-z0-9_]` only. -/
theorem sanitizeString_allowed (s : String) :
    ∀ ch ∈ (datadog.sanitizeString s).data, allowedChar ch = true := by
  intro ch hch
  rw [sanitizeString_data] at hch
  rcases scan_allowed s.data false ch hch with h | h
  · simp [allowedChar, h]
  · simp [allowedChar, h]

/-- The name `sanitizeMetricName` returns is the sanitised name, after the sanitised
namespace and one `.` when a namespace is configured. -/
theorem sanitizeMetricName_shape (nspace name : String) :
    (nspace = "" ∧ datadog.sanitizeMetricName nspace name = datadog.sanitizeString name)
    ∨ (nspace ≠ "" ∧ ∃ p : String, (∀ ch ∈ p.data, allowedChar ch = true)
        ∧ datadog.sanitizeMetricName nspace name = p ++ "." ++ datadog.sanitizeString name) := by
  by_cases h : nspace = ""
  · exact Or.inl ⟨h, by simp [datadog.sanitizeMetricName, h]⟩
  · refine Or.inr ⟨h, datadog.sanitizeString (datadog.stringsReplace nspace " " ""),
      sanitizeString_allowed _, ?_⟩
    simp [datadog.sanitizeMetricName, h]

/-- The points loop calls the sink under the given name. -/
theorem exporter_points_names (sink : Sink) (f : SinkOp) (name : String) (kind : NumberKind)
    (tags : List String) (numbers : List Number) :
    ∀ before : List SinkCall,
      ∃ new, (exporter.Export.points sink f name kind tags numbers before).1 = before ++ new
        ∧ ∀ c ∈ new, c.name = name := by
  induction numbers with
  | nil => intro before; exact ⟨[], by simp [exporter.Export.points], by simp⟩
  | cons n ns ih =>
    intro before
    simp only [exporter.Export.points, clientCall]
    rcases sink before ⟨f, name, .float64 (metricValue kind n), tags, rate⟩ with _ | err
    · obtain ⟨new, hnew, hall⟩ := ih (before ++ [⟨f, name, .float64 (metricValue kind n), tags, rate⟩])
      refine ⟨⟨f, name, .float64 (metricValue kind n), tags, rate⟩ :: new, by simpa using hnew, ?_⟩
      intro c hc
      rcases List.mem_cons.1 hc with rfl | hc
      · rfl
      · exact hall c hc
    · refine ⟨[⟨f, name, .float64 (metricValue kind n), tags, rate⟩], rfl, ?_⟩
      intro c hc
      rw [List.mem_singleton] at hc
      rw [hc]

/-- The gauges loop of `src/exporter/datadog.go` calls the sink under the names of the
sub-metrics. -/
theorem exporter_gauges_names (sink : Sink) (name : String) (kind : NumberKind)
    (tags : List String) (recs : List GaugeRec) :
    ∀ before : List SinkCall,
      ∃ new, (exporter.Export.gauges sink name kind tags recs before).1 = before ++ new
        ∧ ∀ c ∈ new, ∃ rec ∈ recs, c.name = rec.name := by
  induction recs with
  | nil => intro before; exact ⟨[], by simp [exporter.Export.gauges], by simp⟩
  | cons rec recs ih =>
    intro before
    simp only [exporter.Export.gauges, clientCall]
    rcases rec.f () with err | val
    · exact ⟨[], by simp, by simp⟩
    · simp only
      rcases sink before ⟨.Gauge, rec.name, .float64 (metricValue kind val), tags, rate⟩ with _ | err
      · obtain ⟨new, hnew, hall⟩ :=
          ih (before ++ [⟨.Gauge, rec.name, .float64 (metricValue kind val), tags, rate⟩])
        refine ⟨⟨.Gauge, rec.name, .float64 (metricValue kind val), tags, rate⟩ :: new,
          by simpa using hnew, ?_⟩
        intro c hc
        rcases List.mem_cons.1 hc with rfl | hc
        · exact ⟨rec, List.mem_cons_self _ _, rfl⟩
        · obtain ⟨rec2, hrec2, h⟩ := hall c hc
          exact ⟨rec2, List.mem_cons_of_mem _ hrec2, h⟩
      · refine ⟨[⟨.Gauge, rec.name, .float64 (metricValue kind val), tags, rate⟩], rfl, ?_⟩
        intro c hc
        rw [List.mem_singleton] at hc
        exact ⟨rec, List.mem_cons_self _ _, by rw [hc]⟩

/-- In `src/exporter/datadog.go` the name of every call for a record is the descriptor's
name as it is, followed by a sub-metric suffix in the `MinMaxSumCount` case. -/
theorem exporter_record_names (e : exporter.Exporter) (sink : Sink) (r : Record)
    (before : List SinkCall) :
    ∃ new, (exporter.Export.record e sink r before).1 = before ++ new
      ∧ ∀ c ∈ new, ∃ suffix ∈ ["", ".min", ".max", ".median", ".p95"],
          c.name = r.descriptor.Name ++ suffix := by
  rcases hP : r.aggregator.Points with _ | (err | numbers)
  · rcases hM : r.aggregator.MinMaxSumCount with _ | m
    · rcases hS : r.aggregator.Sum with _ | (err | val)
      · rcases hL : r.aggregator.LastValue with _ | (err | ⟨val, t⟩)
        · simp only [exporter.Export.record, hP, hM, hS, hL]
          exact ⟨[], by simp, by simp⟩
        · simp only [exporter.Export.record, hP, hM, hS, hL]
          exact ⟨[], by simp, by simp⟩
        · simp only [exporter.Export.record, hP, hM, hS, hL, clientCall]
          refine ⟨[_], rfl, ?_⟩
          intro c hc
          rw [List.mem_singleton] at hc
          exact ⟨"", by simp, by rw [hc]; simp⟩
      · simp only [exporter.Export.record, hP, hM, hS]
        exact ⟨[], by simp, by simp⟩
      · simp only [exporter.Export.record, hP, hM, hS, clientCall]
        refine ⟨[_], rfl, ?_⟩
        intro c hc
        rw [List.mem_singleton] at hc
        exact ⟨"", by simp, by rw [hc]; simp⟩
    · simp only [exporter.Export.record, hP, hM]
      obtain ⟨new, hnew, hall⟩ := exporter_gauges_names sink r.descriptor.Name
        r.descriptor.NumberKind (exporter.extractTags r)
        (match r.aggregator.Distribution with
          | some dist =>
            [⟨r.descriptor.Name ++ ".min", fun _ => m.Min⟩, ⟨r.descriptor.Name ++ ".max", fun _ => m.Max⟩]
            ++ [⟨r.descriptor.Name ++ ".median", fun _ => dist.Quantile quantileMedian⟩,
                ⟨r.descriptor.Name ++ ".p95", fun _ => dist.Quantile quantileP95⟩]
          | none =>
            [⟨r.descriptor.Name ++ ".min", fun _ => m.Min⟩, ⟨r.descriptor.Name ++ ".max", fun _ => m.Max⟩])
        before
      refine ⟨new, hnew, ?_⟩
      intro c hc
      obtain ⟨rec, hrec, h4⟩ := hall c hc
      rcases hD : r.aggregator.Distribution with _ | d
      · rw [hD] at hrec
        simp only [List.mem_cons, List.mem_singleton, List.not_mem_nil, or_false] at hrec
        rcases hrec with rfl | rfl
        · exact ⟨".min", by simp, h4⟩
        · exact ⟨".max", by simp, h4⟩
      · rw [hD] at hrec
        simp only [List.cons_append, List.nil_append, List.mem_cons, List.mem_singleton,
          List.not_mem_nil, or_false] at hrec
        rcases hrec with rfl | rfl | rfl | rfl
        · exact ⟨".min", by simp, h4⟩
        · exact ⟨".max", by simp, h4⟩
        · exact ⟨".median", by simp, h4⟩
        · exact ⟨".p95", by simp, h4⟩
  · simp only [exporter.Export.record, hP]
    exact ⟨[], by simp, by simp⟩
  · simp only [exporter.Export.record, hP]
    obtain ⟨new, hnew, hall⟩ := exporter_points_names sink
      (if e.cfg.UseDistribution then SinkOp.Distribution else SinkOp.Histogram)
      r.descriptor.Name r.descriptor.NumberKind (exporter.extractTags r) numbers before
    refine ⟨new, hnew, ?_⟩
    intro c hc
    exact ⟨"", by simp, by rw [hall c hc]; simp⟩

/-- A property of the calls for each record holds of every call of the iteration. -/
theorem ForEach_calls_of_record (P : Record → SinkCall → Prop)
    (f : Record → List SinkCall → List SinkCall × Option GoError)
    (hf : ∀ r before, ∃ new, (f r before).1 = before ++ new ∧ ∀ c ∈ new, P r c)
    (cs : List Record) :
    ∀ before : List SinkCall,
      ∃ new, (ForEach f cs before).1 = before ++ new ∧ ∀ c ∈ new, ∃ r ∈ cs, P r c := by
  induction cs with
  | nil => intro before; exact ⟨[], by simp [ForEach], by simp⟩
  | cons r rest ih =>
    intro before
    obtain ⟨new1, hnew1, hall1⟩ := hf r before
    simp only [ForEach]
    rcases hfr : f r before with ⟨st1, _ | err⟩
    · rw [hfr] at hnew1
      simp only at hnew1 ⊢
      subst hnew1
      obtain ⟨new2, hnew2, hall2⟩ := ih (before ++ new1)
      refine ⟨new1 ++ new2, by rw [hnew2, List.append_assoc], ?_⟩
      intro c hc
      rcases List.mem_append.1 hc with hc | hc
      · exact ⟨r, List.mem_cons_self _ _, hall1 c hc⟩
      · obtain ⟨r', hr', hrest⟩ := hall2 c hc
        exact ⟨r', List.mem_cons_of_mem _ hr', hrest⟩
    · rw [hfr] at hnew1
      exact ⟨new1, hnew1, fun c hc => ⟨r, List.mem_cons_self _ _, hall1 c hc⟩⟩

/-! ## The claims on `Export` -/

/-- Claim C3, as amended.  In `src/datadog.go`, the name of every sink call is the sanitised
name of a record of the checkpoint followed by one of the suffixes `.min`, `.max`,
`.median`, `.p95`, `.count`; the sanitised name is `sanitizeString` of the descriptor's name,
made of characters of `[A-Za-z0-9_]` whatever the descriptor's name contains, after the
sanitised namespace and one `.` when a namespace is configured.  In
`src/exporter/datadog.go`, which has no sanitisation, the name of every sink call is the
descriptor's name as it is, followed by `.min`, `.max`, `.median` or `.p95` for the gauges of
a `MinMaxSumCount` record. -/
theorem C3_sink_call_names :
    (∀ (grow : Nat → Nat → Nat) (e : datadog.exporter) (sink : Sink) (h : Heap)
        (cs : List Record),
      ∀ c ∈ (datadog.Export grow e sink h cs).calls, ∃ r ∈ cs,
        ∃ suffix ∈ [".min", ".max", ".median", ".p95", ".count"],
          c.name = datadog.sanitizeMetricName e.opts.Namespace r.descriptor.Name ++ suffix)
    ∧ (∀ nspace name : String,
        (∀ ch ∈ (datadog.sanitizeString name).data, allowedChar ch = true)
        ∧ ((nspace = "" ∧ datadog.sanitizeMetricName nspace name = datadog.sanitizeString name)
          ∨ (nspace ≠ "" ∧ ∃ p : String, (∀ ch ∈ p.data, allowedChar ch = true)
              ∧ datadog.sanitizeMetricName nspace name
                  = p ++ "." ++ datadog.sanitizeString name)))
    ∧ (∀ (e : exporter.Exporter) (sink : Sink) (cs : List Record),
      ∀ c ∈ (exporter.Export e sink cs).calls, ∃ r ∈ cs,
        ∃ suffix ∈ ["", ".min", ".max", ".median", ".p95"],
          c.name = r.descriptor.Name ++ suffix) := by
  refine ⟨?_, ?_, ?_⟩
  · intro grow e sink h cs c hc
    obtain ⟨-, new, hnew, hall⟩ := datadog_ForEach_calls grow e sink h cs (h, []) ⟨[], by simp⟩
    have hc2 : c ∈ new := by
      have : (datadog.Export grow e sink h cs).calls = new := by
        simpa [datadog.Export] using hnew
      rwa [this] at hc
    obtain ⟨r, hr, -, -, -, hname⟩ := hall c hc2
    exact ⟨r, hr, hname⟩
  · intro nspace name
    exact ⟨sanitizeString_allowed name, sanitizeMetricName_shape nspace name⟩
  · intro e sink cs c hc
    obtain ⟨new, hnew, hall⟩ := ForEach_calls_of_record
      (fun r c => ∃ suffix ∈ ["", ".min", ".max", ".median", ".p95"],
        c.name = r.descriptor.Name ++ suffix)
      (exporter.Export.record e sink) (exporter_record_names e sink) cs []
    have hc2 : c ∈ new := by
      have : (exporter.Export e sink cs).calls = new := by
        simpa [exporter.Export] using hnew
      rwa [this] at hc
    exact hall c hc2

/-- Witness of C3: the `.min` gauge of the record `latency ms` under the namespace
`My Service` in `src/datadog.go`, and its histogram call in `src/exporter/datadog.go`. -/
theorem C3_sink_call_names_witness :
    (∃ r ∈ [Sample.minMaxRecord], ∃ suffix ∈ [".min", ".max", ".median", ".p95", ".count"],
      "MyService.latency_ms.min"
        = datadog.sanitizeMetricName Sample.legacy.opts.Namespace r.descriptor.Name ++ suffix)
    ∧ (∃ r ∈ [Sample.pointsRecord], ∃ suffix ∈ ["", ".min", ".max", ".median", ".p95"],
      "latency ms" = r.descriptor.Name ++ suffix) :=
  ⟨C3_sink_call_names.1 Sample.grow Sample.legacy Sample.okSink Sample.heap
      [Sample.minMaxRecord]
      ⟨.Gauge, "MyService.latency_ms.min", .float64 ⟨0x4008000000000000⟩,
        ["env:prod", "region:us"], 1⟩ (by decide),
    C3_sink_call_names.2.2 Sample.histogramExporter Sample.okSink [Sample.pointsRecord]
      ⟨.Histogram, "latency ms", .float64 ⟨0x4008000000000000⟩, ["region:us"], 1⟩ (by decide)⟩

/-- Claim C3 as stated fails in `src/exporter/datadog.go`: the three calls for the record
`latency ms` are made under the name `latency ms`, which is not the sanitised name
`latency_ms` and holds a space, a character outside `[A-Za-z0-9_]`. -/
theorem C3_counterexample_unsanitised_name :
    (exporter.Export Sample.histogramExporter Sample.okSink [Sample.pointsRecord]).calls.map
        (fun c => c.name) = ["latency ms", "latency ms", "latency ms"]
    ∧ datadog.sanitizeString "latency ms" = "latency_ms"
    ∧ ' ' ∈ "latency ms".data
    ∧ allowedChar ' ' = false := by
  decide

/-- Witness of C4: with `UseDistribution` set, the record `latency ms`, which retains the
points `3, 5, 4` and satisfies every other capability too, exported after a counter record,
gives three distribution calls and nothing else. -/
theorem C4_points_record_witness :
    (exporter.Export Sample.distributionExporter Sample.okSink [Sample.sumRecord 7]).err = none
    ∧ Sample.pointsRecord.aggregator.Points = some (.ok [3, 5, 4])
    ∧ (exporter.Export Sample.distributionExporter Sample.okSink
          ([Sample.sumRecord 7] ++ [Sample.pointsRecord])).calls
        = [⟨.Count, "requests", .int64 7, ["region:us"], 1⟩,
           ⟨.Distribution, "latency ms", .float64 ⟨0x4008000000000000⟩, ["region:us"], 1⟩,
           ⟨.Distribution, "latency ms", .float64 ⟨0x4014000000000000⟩, ["region:us"], 1⟩,
           ⟨.Distribution, "latency ms", .float64 ⟨0x4010000000000000⟩, ["region:us"], 1⟩]
    ∧ (exporter.Export Sample.distributionExporter Sample.okSink
          ([Sample.sumRecord 7] ++ [Sample.pointsRecord])).err = none :=
  have h := C4_points_record_calls Sample.distributionExporter Sample.okSink [Sample.sumRecord 7]
    Sample.pointsRecord [3, 5, 4] (by decide) rfl (fun _ _ _ _ => rfl)
  ⟨by decide, rfl, h.1.trans (by decide), h.2.1⟩

/-- Claim C4 as stated fails: its provisos are the Points read and the sends only, but a
record is exported only when the iteration reaches it.  After the record `http requests`,
whose `Sum()` read fails, `Export` of `src/exporter/datadog.go` returns at once: the record
`latency ms`, which retains the three points `3, 5, 4` and whose Points read succeeds, on a
sink where every send succeeds, gets no call at all. -/
theorem C4_counterexample_record_not_reached :
    Sample.pointsRecord.aggregator.Points = some (.ok [3, 5, 4])
    ∧ (∀ before c, Sample.okSink before c = none)
    ∧ (exporter.Export Sample.histogramExporter Sample.okSink
        [Sample.failingSumRecord, Sample.pointsRecord]).calls = []
    ∧ (exporter.Export Sample.histogramExporter Sample.okSink
        [Sample.failingSumRecord, Sample.pointsRecord]).err
      = some ⟨"error getting Sum value for http requests: boom"⟩ :=
  ⟨rfl, fun _ _ => rfl, by decide, by decide⟩

/-- Claim C5.  For a record `r` whose aggregator satisfies `MinMaxSumCount` (and, in
`src/exporter/datadog.go`, not `Points`), exported after records `pre` that raised no error,
when every read (and in `src/exporter/datadog.go` every send) succeeds: `Export` makes for
`r` exactly the gauge calls `<name>.min` with the Min value and `<name>.max` with the Max
value, followed, exactly when the aggregator also satisfies `Distribution`, by
`<name>.median` with `Quantile(0.5)` and `<name>.p95` with `Quantile(0.95)`; each call has the
record's tag list and sample rate 1; no other call is made for `r`.  Here `<name>` is the
metric name of the exporter: the sanitised, namespaced name in `src/datadog.go`, the
descriptor's name in `src/exporter/datadog.go`; the tag list is the global tags followed by
the label tags in `src/datadog.go`, the label tags in `src/exporter/datadog.go`. -/
theorem C5_minMaxSumCount_gauges :
    (∀ (grow : Nat → Nat → Nat) (e : datadog.exporter) (sink : Sink) (h : Heap)
        (pre : List Record) (r : Record) (m : MinMaxSumCount) (vmin vmax vmed vp95 : Number),
      h.Allocated e.opts.Tags →
      (datadog.Export grow e sink h pre).err = none →
      r.aggregator.MinMaxSumCount = some m →
      m.Min = .ok vmin → m.Max = .ok vmax →
      (∀ d, r.aggregator.Distribution = some d →
        d.Quantile quantileMedian = .ok vmed ∧ d.Quantile quantileP95 = .ok vp95) →
      (datadog.Export grow e sink h (pre ++ [r])).calls
          = (datadog.Export grow e sink h pre).calls
            ++ (minMaxGauges (datadog.sanitizeMetricName e.opts.Namespace r.descriptor.Name)
                  r.descriptor.NumberKind (h.load e.opts.Tags ++ r.labels.map labelTag) vmin vmax
                ++ (if r.aggregator.Distribution.isSome then
                      quantileGauges (datadog.sanitizeMetricName e.opts.Namespace r.descriptor.Name)
                        r.descriptor.NumberKind (h.load e.opts.Tags ++ r.labels.map labelTag)
                        vmed vp95
                    else []))
      ∧ (datadog.Export grow e sink h (pre ++ [r])).err = none)
    ∧ (∀ (e : exporter.Exporter) (sink : Sink) (pre : List Record) (r : Record)
        (m : MinMaxSumCount) (vmin vmax vmed vp95 : Number),
      (exporter.Export e sink pre).err = none →
      r.aggregator.Points = none →
      r.aggregator.MinMaxSumCount = some m →
      m.Min = .ok vmin → m.Max = .ok vmax →
      (∀ d, r.aggregator.Distribution = some d →
        d.Quantile quantileMedian = .ok vmed ∧ d.Quantile quantileP95 = .ok vp95) →
      (∀ p c q,
        minMaxGauges r.descriptor.Name r.descriptor.NumberKind (r.labels.map labelTag) vmin vmax
          ++ (if r.aggregator.Distribution.isSome then
                quantileGauges r.descriptor.Name r.descriptor.NumberKind (r.labels.map labelTag)
                  vmed vp95
              else []) = p ++ c :: q →
        sink ((exporter.Export e sink pre).calls ++ p) c = none) →
      (exporter.Export e sink (pre ++ [r])).calls
          = (exporter.Export e sink pre).calls
            ++ (minMaxGauges r.descriptor.Name r.descriptor.NumberKind (r.labels.map labelTag)
                  vmin vmax
                ++ (if r.aggregator.Distribution.isSome then
                      quantileGauges r.descriptor.Name r.descriptor.NumberKind
                        (r.labels.map labelTag) vmed vp95
                    else []))
      ∧ (exporter.Export e sink (pre ++ [r])).err = none) := by
  constructor
  · intro grow e sink h pre r m vmin vmax vmed vp95 hG hpre hmmsc hmin hmax hdist
    have hload := (load_of_extends e.opts.Tags hG
      (datadog_Export_heap_extends grow e sink h pre)).1
    obtain ⟨hcalls, herr⟩ := datadog_minMaxSumCount_record grow e sink
      ((datadog.Export grow e sink h pre).heap, (datadog.Export grow e sink h pre).calls)
      r m vmin vmax vmed vp95 hmmsc hmin hmax hdist
    rw [datadog_Export_snoc grow e sink h pre r hpre]
    simp only at hcalls herr ⊢
    rw [hload] at hcalls
    exact ⟨hcalls, herr⟩
  · intro e sink pre r m vmin vmax vmed vp95 hpre hpoints hmmsc hmin hmax hdist hsend
    rw [exporter_Export_snoc e sink pre r hpre,
      exporter_minMaxSumCount_record e sink _ r m vmin vmax vmed vp95 hpoints hmmsc hmin hmax
        hdist hsend]
    exact ⟨rfl, rfl⟩

/-- Witness of C5: in `src/exporter/datadog.go` a record with `MinMaxSumCount` and
`Distribution` gives the four gauges, in `src/datadog.go` a record with `MinMaxSumCount`
only gives the two gauges, each after a counter record. -/
theorem C5_minMaxSumCount_witness :
    ((exporter.Export Sample.histogramExporter Sample.okSink
          ([Sample.sumRecord 7] ++ [Sample.distributionRecord])).calls
        = [⟨.Count, "requests", .int64 7, ["region:us"], 1⟩,
           ⟨.Gauge, "latency ms.min", .float64 ⟨0x4008000000000000⟩, ["region:us"], 1⟩,
           ⟨.Gauge, "latency ms.max", .float64 ⟨0x4014000000000000⟩, ["region:us"], 1⟩,
           ⟨.Gauge, "latency ms.median", .float64 ⟨0x4010000000000000⟩, ["region:us"], 1⟩,
           ⟨.Gauge, "latency ms.p95", .float64 ⟨0x4014000000000000⟩, ["region:us"], 1⟩]
      ∧ (exporter.Export Sample.histogramExporter Sample.okSink
          ([Sample.sumRecord 7] ++ [Sample.distributionRecord])).err = none)
    ∧ ((datadog.Export Sample.grow Sample.legacy Sample.okSink Sample.heap
          ([Sample.sumRecord 7] ++ [Sample.minMaxRecord])).calls
        = [⟨.Gauge, "MyService.requests.count", .float64 ⟨0x401C000000000000⟩,
            ["env:prod", "region:us"], 1⟩,
           ⟨.Gauge, "MyService.latency_ms.min", .float64 ⟨0x4008000000000000⟩,
            ["env:prod", "region:us"], 1⟩,
           ⟨.Gauge, "MyService.latency_ms.max", .float64 ⟨0x4014000000000000⟩,
            ["env:prod", "region:us"], 1⟩]
      ∧ (datadog.Export Sample.grow Sample.legacy Sample.okSink Sample.heap
          ([Sample.sumRecord 7] ++ [Sample.minMaxRecord])).err = none) :=
  have hx := C5_minMaxSumCount_gauges.2 Sample.histogramExporter Sample.okSink
    [Sample.sumRecord 7] Sample.distributionRecord ⟨.ok 3, .ok 5⟩ 3 5 4 5
    (by decide) rfl rfl rfl rfl
    (fun d hd => by cases hd; exact ⟨rfl, rfl⟩) (fun _ _ _ _ => rfl)
  have hd := C5_minMaxSumCount_gauges.1 Sample.grow Sample.legacy Sample.okSink Sample.heap
    [Sample.sumRecord 7] Sample.minMaxRecord ⟨.ok 3, .ok 5⟩ 3 5 0 0
    (by decide) (by decide) rfl rfl rfl (fun d hd => by cases hd)
  ⟨⟨hx.1.trans (by decide), hx.2⟩, ⟨hd.1.trans (by decide), hd.2⟩⟩

/-- Claim C6, as amended.  For a record `r` whose aggregator satisfies `Sum` (and none of the
capabilities tried before it) and whose `Sum()` read fails with `cause`, reached after
records `pre` that raised no error, and whatever records `post` follow: the sink calls
`Export` makes are exactly the calls of the records `pre`, in both implementations.  In
`src/exporter/datadog.go`, `Export` returns the error with message
`error getting Sum value for <name>: <cause>`, which contains the descriptor's name.  In
`src/datadog.go`, `Export` returns `cause` itself, whatever its message. -/
theorem C6_sum_read_failure :
    (∀ (e : exporter.Exporter) (sink : Sink) (pre : List Record) (r : Record)
        (post : List Record) (cause : GoError),
      (exporter.Export e sink pre).err = none →
      r.aggregator.Points = none →
      r.aggregator.MinMaxSumCount = none →
      r.aggregator.Sum = some (.error cause) →
      (exporter.Export e sink (pre ++ r :: post)).calls = (exporter.Export e sink pre).calls
      ∧ (exporter.Export e sink (pre ++ r :: post)).err
          = some ⟨"error getting Sum value for " ++ r.descriptor.Name ++ ": " ++ cause.msg⟩
      ∧ ∃ err, (exporter.Export e sink (pre ++ r :: post)).err = some err
          ∧ r.descriptor.Name.data <:+: err.msg.data)
    ∧ (∀ (grow : Nat → Nat → Nat) (e : datadog.exporter) (sink : Sink) (h : Heap)
        (pre : List Record) (r : Record) (post : List Record) (cause : GoError),
      (datadog.Export grow e sink h pre).err = none →
      r.aggregator.MinMaxSumCount = none →
      r.aggregator.Sum = some (.error cause) →
      (datadog.Export grow e sink h (pre ++ r :: post)).calls
          = (datadog.Export grow e sink h pre).calls
      ∧ (datadog.Export grow e sink h (pre ++ r :: post)).err = some cause) := by
  constructor
  · intro e sink pre r post cause hpre hpoints hmmsc hsum
    rw [exporter_Export_sum_read_failure e sink pre r post cause hpre hpoints hmmsc hsum]
    exact ⟨rfl, rfl, _, rfl, Errorf_msg_contains_name _ _ _⟩
  · intro grow e sink h pre r post cause hpre hmmsc hsum
    exact datadog_Export_sum_read_failure grow e sink h pre r post cause hpre hmmsc hsum

/-- Witness of C6: the record `http requests`, whose `Sum()` read fails with `boom`, between
a counter record and a measure record, in both implementations. -/
theorem C6_sum_read_failure_witness :
    ((exporter.Export Sample.histogramExporter Sample.okSink
          ([Sample.sumRecord 7] ++ Sample.failingSumRecord :: [Sample.pointsRecord])).calls
        = [⟨.Count, "requests", .int64 7, ["region:us"], 1⟩]
      ∧ (exporter.Export Sample.histogramExporter Sample.okSink
          ([Sample.sumRecord 7] ++ Sample.failingSumRecord :: [Sample.pointsRecord])).err
        = some ⟨"error getting Sum value for http requests: boom"⟩)
    ∧ ((datadog.Export Sample.grow Sample.legacy Sample.okSink Sample.heap
          ([Sample.sumRecord 7] ++ Sample.failingSumRecord :: [Sample.pointsRecord])).calls
        = [⟨.Gauge, "MyService.requests.count", .float64 ⟨0x401C000000000000⟩,
            ["env:prod", "region:us"], 1⟩]
      ∧ (datadog.Export Sample.grow Sample.legacy Sample.okSink Sample.heap
          ([Sample.sumRecord 7] ++ Sample.failingSumRecord :: [Sample.pointsRecord])).err
        = some ⟨"boom"⟩) :=
  have hx := C6_sum_read_failure.1 Sample.histogramExporter Sample.okSink [Sample.sumRecord 7]
    Sample.failingSumRecord [Sample.pointsRecord] ⟨"boom"⟩ (by decide) rfl rfl rfl
  have hd := C6_sum_read_failure.2 Sample.grow Sample.legacy Sample.okSink Sample.heap
    [Sample.sumRecord 7] Sample.failingSumRecord [Sample.pointsRecord] ⟨"boom"⟩
    (by decide) rfl rfl
  ⟨⟨hx.1.trans (by decide), hx.2.1.trans (by decide)⟩, ⟨hd.1.trans (by decide), hd.2⟩⟩

/-- Claim C6 as stated fails in `src/datadog.go`: for the record `http requests`, whose
`Sum()` read fails with `boom`, `Export` returns the error `boom`, and that message contains
neither the descriptor's name nor the sanitised metric name. -/
theorem C6_counterexample_unwrapped_error :
    (datadog.Export Sample.grow Sample.legacyPlain Sample.okSink Sample.heap
        [Sample.failingSumRecord]).err = some ⟨"boom"⟩
    ∧ Sample.failingSumRecord.descriptor.Name = "http requests"
    ∧ datadog.sanitizeMetricName Sample.legacyPlain.opts.Namespace "http requests" = "http_requests"
    ∧ ¬ ("http requests".data <:+: "boom".data)
    ∧ ¬ ("http_requests".data <:+: "boom".data) := by
  decide

/-- Claim C7, as amended.  In `src/exporter/datadog.go`, if a sink call (gauge, count,
histogram or distribution) returns an error, that call is the last sink call `Export` makes,
neither for the remaining sub-metrics of the record nor for a later record, and `Export`
returns that error.  In `src/datadog.go` the answer of the sink is dropped: `Export` makes
the same calls and returns the same result whatever the sink answers. -/
theorem C7_send_failure :
    (∀ (e : exporter.Exporter) (sink : Sink) (cs : List Record) (made : List SinkCall)
        (c : SinkCall) (later : List SinkCall) (err : GoError),
      (exporter.Export e sink cs).calls = made ++ c :: later →
      sink made c = some err →
      later = [] ∧ (exporter.Export e sink cs).err = some err)
    ∧ (∀ (grow : Nat → Nat → Nat) (e : datadog.exporter) (sink1 sink2 : Sink) (h : Heap)
        (cs : List Record),
      datadog.Export grow e sink1 h cs = datadog.Export grow e sink2 h cs) :=
  ⟨exporter_Export_send_failure, datadog_Export_sink_irrelevant⟩

/-- Witness of C7: on a sink whose second call fails, the export of a distribution record
(four gauges) and a counter record stops after the second gauge and returns the error of the
sink. -/
theorem C7_send_failure_witness :
    (exporter.Export Sample.histogramExporter (Sample.failAt 1)
        [Sample.distributionRecord, Sample.sumRecord 7]).calls
      = [⟨.Gauge, "latency ms.min", .float64 ⟨0x4008000000000000⟩, ["region:us"], 1⟩]
        ++ ⟨.Gauge, "latency ms.max", .float64 ⟨0x4014000000000000⟩, ["region:us"], 1⟩ :: []
    ∧ Sample.failAt 1
        [⟨.Gauge, "latency ms.min", .float64 ⟨0x4008000000000000⟩, ["region:us"], 1⟩]
        ⟨.Gauge, "latency ms.max", .float64 ⟨0x4014000000000000⟩, ["region:us"], 1⟩
      = some ⟨"write: connection refused"⟩
    ∧ (exporter.Export Sample.histogramExporter (Sample.failAt 1)
        [Sample.distributionRecord, Sample.sumRecord 7]).err
      = some ⟨"write: connection refused"⟩ :=
  ⟨by decide, by decide,
    (C7_send_failure.1 Sample.histogramExporter (Sample.failAt 1)
      [Sample.distributionRecord, Sample.sumRecord 7]
      [⟨.Gauge, "latency ms.min", .float64 ⟨0x4008000000000000⟩, ["region:us"], 1⟩]
      ⟨.Gauge, "latency ms.max", .float64 ⟨0x4014000000000000⟩, ["region:us"], 1⟩ []
      ⟨"write: connection refused"⟩ (by decide) (by decide)).2⟩

/-- Claim C7 as stated fails in `src/datadog.go`: on a sink where every call fails, the
first gauge call returns an error, yet `Export` makes the second gauge call of the record
and the call of the next record, and returns no error. -/
theorem C7_counterexample_dropped_send_error :
    Sample.failingSink []
        ⟨.Gauge, "latency_ms.min", .float64 ⟨0x4008000000000000⟩, ["env:prod", "region:us"], 1⟩
      = some ⟨"write: connection refused"⟩
    ∧ (datadog.Export Sample.grow Sample.legacyPlain Sample.failingSink Sample.heap
        [Sample.minMaxRecord, Sample.sumRecord 7]).calls
      = [⟨.Gauge, "latency_ms.min", .float64 ⟨0x4008000000000000⟩, ["env:prod", "region:us"], 1⟩,
         ⟨.Gauge, "latency_ms.max", .float64 ⟨0x4014000000000000⟩, ["env:prod", "region:us"], 1⟩,
         ⟨.Gauge, "requests.count", .float64 ⟨0x401C000000000000⟩, ["env:prod", "region:us"], 1⟩]
    ∧ (datadog.Export Sample.grow Sample.legacyPlain Sample.failingSink Sample.heap
        [Sample.minMaxRecord, Sample.sumRecord 7]).err = none := by
  decide

/-- Claim C8, where the code departs from it.  `metricValue` for the unsigned kind never sets
the sign bit, so every value that goes through it is non-negative; but the `Sum` case of
`Exporter.Export` in `src/exporter/datadog.go` does not go through `metricValue`: it passes
`val.AsInt64()` to `Count`, and for an unsigned record with total `18446744073709551615` the
value handed to the sink is `-1`. -/
theorem C8_sum_branch_hands_negative_count :
    (∀ v : Number, (metricValue .Uint64NumberKind v).signBit = 0)
    ∧ (Sample.sumRecord 18446744073709551615).descriptor.NumberKind = .Uint64NumberKind
    ∧ (exporter.Export Sample.histogramExporter Sample.okSink
        [Sample.sumRecord 18446744073709551615]).calls
      = [⟨.Count, "requests", .int64 (-1), ["region:us"], 1⟩]
    ∧ (datadog.Export Sample.grow Sample.legacyPlain Sample.okSink Sample.heap
        [Sample.sumRecord 18446744073709551615]).calls
      = [⟨.Gauge, "requests.count", .float64 ⟨0x43F0000000000000⟩, ["env:prod", "region:us"], 1⟩] := by
  refine ⟨?_, by decide, by decide, by decide⟩
  intro v
  have h := Float64_ofUint64_bits_lt (Number.AsUint64 v)
  simp only [metricValue, Float64.signBit]
  rw [Nat.div_eq_of_lt h]

/-- Claim C9.  In `src/datadog.go`, with the configured global tags `G` allocated in the
heap: the tag list of every sink call for a record `r` (the calls `Export` adds when `r`
follows the records `pre`) is `G` followed by `k:v` for the labels of `r` in iteration order,
of length `|G| + n`; and the configured global tags read the same after `Export` as
before.  Global tags `["env:prod"]` with label set `{region: "us"}` give
`["env:prod", "region:us"]`. -/
theorem C9_tag_list :
    (∀ (grow : Nat → Nat → Nat) (e : datadog.exporter) (sink : Sink) (h : Heap)
        (pre : List Record) (r : Record),
      h.Allocated e.opts.Tags →
      ∃ new, (datadog.Export grow e sink h (pre ++ [r])).calls
          = (datadog.Export grow e sink h pre).calls ++ new
        ∧ ∀ c ∈ new, c.tags = h.load e.opts.Tags ++ r.labels.map labelTag
            ∧ c.tags.length = (h.load e.opts.Tags).length + r.labels.length)
    ∧ (∀ (grow : Nat → Nat → Nat) (e : datadog.exporter) (sink : Sink) (h : Heap)
        (cs : List Record),
      h.Allocated e.opts.Tags →
      (datadog.Export grow e sink h cs).heap.load e.opts.Tags = h.load e.opts.Tags)
    ∧ Sample.heap.load Sample.legacy.opts.Tags = ["env:prod"]
    ∧ (datadog.Export Sample.grow Sample.legacy Sample.okSink Sample.heap
        [Sample.sumRecord 7]).calls.map (fun c => c.tags) = [["env:prod", "region:us"]] := by
  refine ⟨?_, ?_, by decide, by decide⟩
  · intro grow e sink h pre r hG
    rcases hpre : (datadog.Export grow e sink h pre).err with _ | err
    · have hload := (load_of_extends e.opts.Tags hG
        (datadog_Export_heap_extends grow e sink h pre)).1
      obtain ⟨-, new, hnew, hall⟩ := datadog_record_calls grow e sink r
        ((datadog.Export grow e sink h pre).heap, (datadog.Export grow e sink h pre).calls)
      refine ⟨new, ?_, ?_⟩
      · rw [datadog_Export_snoc grow e sink h pre r hpre]
        exact hnew
      · intro c hc
        obtain ⟨-, htags, -, -⟩ := hall c hc
        simp only at htags
        rw [hload] at htags
        refine ⟨htags, ?_⟩
        rw [htags, List.length_append, List.length_map]
    · refine ⟨[], ?_, by simp⟩
      have : ForEach (datadog.Export.record grow e sink) (pre ++ [r]) (h, [])
          = ForEach (datadog.Export.record grow e sink) pre (h, []) :=
        ForEach_append_of_error _ _ _ _ err hpre
      simp only [datadog.Export, this, List.append_nil]
  · intro grow e sink h cs hG
    exact (load_of_extends e.opts.Tags hG (datadog_Export_heap_extends grow e sink h cs)).1

/-- Witness of C9: global tags `["env:prod"]`, a record with labels `region: us` after a
counter record. -/
theorem C9_tag_list_witness :
    Sample.heap.Allocated Sample.legacy.opts.Tags
    ∧ (∃ new, (datadog.Export Sample.grow Sample.legacy Sample.okSink Sample.heap
          ([Sample.sumRecord 7] ++ [Sample.minMaxRecord])).calls
        = (datadog.Export Sample.grow Sample.legacy Sample.okSink Sample.heap
            [Sample.sumRecord 7]).calls ++ new
        ∧ ∀ c ∈ new, c.tags = ["env:prod", "region:us"] ∧ c.tags.length = 1 + 1)
    ∧ (datadog.Export Sample.grow Sample.legacy Sample.okSink Sample.heap
        ([Sample.sumRecord 7] ++ [Sample.minMaxRecord])).calls.map (fun c => c.tags)
      = [["env:prod", "region:us"], ["env:prod", "region:us"], ["env:prod", "region:us"]]
    ∧ (datadog.Export Sample.grow Sample.legacy Sample.okSink Sample.heap
        ([Sample.sumRecord 7] ++ [Sample.minMaxRecord])).heap.load Sample.legacy.opts.Tags
      = ["env:prod"] :=
  ⟨by decide,
    C9_tag_list.1 Sample.grow Sample.legacy Sample.okSink Sample.heap [Sample.sumRecord 7]
      Sample.minMaxRecord (by decide),
    by decide,
    (C9_tag_list.2.1 Sample.grow Sample.legacy Sample.okSink Sample.heap
      ([Sample.sumRecord 7] ++ [Sample.minMaxRecord]) (by decide)).trans (by decide)⟩
